import Mathlib

/-!
Verification development for `update_hashes.py`: a tool that scans GitHub
workflow YAML files for references of the form `XRPLF/actions/<path>@<hash>`
and rewrites each reference to the latest commit hash for that path.

The embedding works on `List Char` (Python `str` is a sequence of unicode
code points).  Pure functions of the script become Lean functions; the sole
external effect (the `git log` child process) is abstracted as an
environment `env : List Char → Bool × List Char` giving, per queried path,
the exit status (`true` = exit code 0, matching `check=True`) and the raw
stdout.  Filesystem state is a list of files; writes are modelled by
returning the new list together with a log of written paths.
-/

/-- Characters matched by Python's `\s` (and `str.isspace`) for `str`
patterns: ASCII whitespace, the information separators, NEL, NBSP and the
Unicode space characters. -/
def isPySpace (c : Char) : Bool :=
  let n := c.toNat
  (9 ≤ n && n ≤ 13) || (28 ≤ n && n ≤ 31) || n == 32 || n == 0x85 ||
    n == 0xa0 || n == 0x1680 || (0x2000 ≤ n && n ≤ 0x200a) ||
    n == 0x2028 || n == 0x2029 || n == 0x202f || n == 0x205f || n == 0x3000

/-- The character class `[a-f0-9]` of the hash group of `PATTERN`, as code
point ranges (97-102 is a-f, 48-57 is 0-9). -/
def isHexChar (c : Char) : Bool :=
  let n := c.toNat
  (97 ≤ n && n ≤ 102) || (48 ≤ n && n ≤ 57)

/-- The character class of the plain-path branch of `PATTERN`: lowercase
letters (97-122), digits (48-57), dot (46), underscore (95), slash (47),
hyphen (45). -/
def isPathChar (c : Char) : Bool :=
  let n := c.toNat
  (97 ≤ n && n ≤ 122) || (48 ≤ n && n ≤ 57) ||
    n == 46 || n == 95 || n == 47 || n == 45

/-- The character class `[^@\s]` of the workflow-file branch of `PATTERN`. -/
def isB1Char (c : Char) : Bool :=
  !(c == '@') && !isPySpace c

/-- The literal `XRPLF/actions/` that starts every reference. -/
def actionsLit : List Char := ("XRPLF/actions/").data

/-- The literal `.github/workflows/` of the workflow-file branch. -/
def gwLit : List Char := (".github/workflows/").data

/-- The frozen dataclass `ActionReference` of the script. -/
structure ActionReference where
  full_match : List Char
  action_path : List Char
  current_hash : List Char
deriving DecidableEq, Repr

/-- Matching of `[a-f0-9]{40}`: exactly the next 40 characters, all
lowercase hex; returns the hash and the remaining input. -/
def matchHash (s : List Char) : Option (List Char × List Char) :=
  let h := s.take 40
  if h.length = 40 ∧ h.all isHexChar then some (h, s.drop 40) else none

/-- Matching of the branch `\.github/workflows/[^@\s]+` followed by the
rest of the pattern (`@` and the hash).  The `+` is greedy; since the class
excludes `@`, only the maximal run can be followed by the literal `@`, so
the regex backtracking collapses to this function. -/
def matchBranch1 (s : List Char) : Option (List Char × List Char × List Char) :=
  if gwLit.isPrefixOf s then
    let t := s.drop gwLit.length
    let run := t.takeWhile isB1Char
    if run = [] then none
    else
      match t.dropWhile isB1Char with
      | [] => none
      | a :: u =>
        if a = '@' then
          match matchHash u with
          | some (h, rest) => some (gwLit ++ run, h, rest)
          | none => none
        else none
  else none

/-- Matching of the plain-path branch (one or more path-class characters)
followed by `@` and the hash.
As with the first branch, greediness is forced. -/
def matchBranch2 (s : List Char) : Option (List Char × List Char × List Char) :=
  let run := s.takeWhile isPathChar
  if run = [] then none
  else
    match s.dropWhile isPathChar with
    | [] => none
    | a :: u =>
      if a = '@' then
        match matchHash u with
        | some (h, rest) => some (run, h, rest)
        | none => none
      else none

/-- Attempt of `PATTERN` anchored at the head of `s`: the literal prefix,
then the two-branch alternation (first branch tried first, like the regex),
then `@` and the 40-character hash.  Returns the reference built exactly as
`find_action_references` builds it (group 0, group 1, group 2) and the
remaining input after the match. -/
def matchAt (s : List Char) : Option (ActionReference × List Char) :=
  if actionsLit.isPrefixOf s then
    match matchBranch1 (s.drop actionsLit.length) with
    | some (p, h, rest) => some (⟨actionsLit ++ p ++ '@' :: h, p, h⟩, rest)
    | none =>
      match matchBranch2 (s.drop actionsLit.length) with
      | some (p, h, rest) => some (⟨actionsLit ++ p ++ '@' :: h, p, h⟩, rest)
      | none => none
  else none

/-- The scan of `PATTERN.finditer`: positions are tried left to right and a
successful match is skipped over (non-overlapping matches).  `skip` is the
number of characters of the current match still to be consumed, `pos` the
absolute index of the head of `s`.  Emits `(absolute position, reference)`
pairs in order. -/
def scanSk (skip pos : Nat) : List Char → List (Nat × ActionReference)
  | [] => []
  | c :: cs =>
    match skip with
    | k + 1 => scanSk k (pos + 1) cs
    | 0 =>
      match matchAt (c :: cs) with
      | some (r, _) =>
        (pos, r) :: scanSk (r.full_match.length - 1) (pos + 1) cs
      | none => scanSk 0 (pos + 1) cs

/-- All matches of `PATTERN` in `s`, with their start positions. -/
def matchesOf (s : List Char) : List (Nat × ActionReference) :=
  scanSk 0 0 s

/-- The function `find_action_references`: the set of distinct references
found in a file's content.  Python's `set` is modelled as a deduplicated
list; the iteration order of a Python set is unspecified, so the list order
is one admissible determinization. -/
def find_action_references (content : List Char) : List ActionReference :=
  ((matchesOf content).map (fun pr => pr.2)).dedup

/-- One file of the scanned directory tree: its path and its content. -/
structure WFile where
  path : List Char
  content : List Char
deriving DecidableEq, Repr

/-- Whether `rglob("*.yml")` yields the file: its name ends in `.yml`. -/
def isYml (p : List Char) : Bool :=
  (".yml").data.isSuffixOf p

/-- The references relevant to a file: those found by the scanner when the
file is enumerated by `rglob("*.yml")`, and none otherwise. -/
def relevantRefs (f : WFile) : List ActionReference :=
  if isYml f.path then find_action_references f.content else []

/-- The function `collect_all_references`: the mapping from file to its
non-empty set of references, in directory order. -/
def collect_all_references (files : List WFile) :
    List (WFile × List ActionReference) :=
  files.filterMap (fun f =>
    let rs := relevantRefs f
    if rs = [] then none else some (f, rs))

/-- Failures of a history query: a non-zero exit status of the `git`
child process (`check=True` raises `CalledProcessError`), or an empty hash
after stripping (the `assert`). -/
inductive GitFailure where
  | processFailed (p : List Char)
  | emptyHash (p : List Char)
deriving DecidableEq, Repr

/-- Python `str.strip()`: remove leading and trailing whitespace. -/
def pyStrip (s : List Char) : List Char :=
  ((s.dropWhile isPySpace).reverse.dropWhile isPySpace).reverse

/-- The function `get_latest_commit_for_path`: run the history query for
`p`; a non-zero exit aborts (`check=True`), then the stripped stdout must
be non-empty (the `assert`). -/
def get_latest_commit_for_path (env : List Char → Bool × List Char)
    (p : List Char) : Except GitFailure (List Char) :=
  let r := env p
  if r.1 = false then Except.error (GitFailure.processFailed p)
  else
    let h := pyStrip r.2
    if h = [] then Except.error (GitFailure.emptyHash p)
    else Except.ok h

/-- The hash a successful query returns for `p`. -/
def resolvedHash (env : List Char → Bool × List Char) (p : List Char) :
    List Char :=
  pyStrip (env p).2

/-- Success of the history query for `p` under `env`. -/
def queryOk (env : List Char → Bool × List Char) (p : List Char) : Prop :=
  (env p).1 = true ∧ resolvedHash env p ≠ []

/-- One step of `get_hash_mapping`: skip the reference if its path is
already resolved, otherwise query and record the result.  The state is the
association list under construction together with the log of paths actually
queried. -/
def ghmStep (env : List Char → Bool × List Char)
    (acc : List (List Char × List Char) × List (List Char))
    (r : ActionReference) :
    Except GitFailure (List (List Char × List Char) × List (List Char)) :=
  if (acc.1.lookup r.action_path).isSome then Except.ok acc
  else
    match get_latest_commit_for_path env r.action_path with
    | Except.error e => Except.error e
    | Except.ok h =>
      Except.ok (acc.1 ++ [(r.action_path, h)], acc.2 ++ [r.action_path])

/-- The function `get_hash_mapping`: fold the step over all references of
all scanned files; the first failure aborts the whole run, so no partial
mapping ever escapes. -/
def get_hash_mapping (env : List Char → Bool × List Char)
    (allRefs : List (WFile × List ActionReference)) :
    Except GitFailure (List (List Char × List Char) × List (List Char)) :=
  allRefs.foldlM
    (fun acc fr => fr.2.foldlM (ghmStep env) acc) ([], [])

/-- Lookup in the hash mapping; the script indexes the dict directly
(`hash_mapping[ref.action_path]`), which never misses because the mapping
was built from the very same references. -/
def lookupD (m : List (List Char × List Char)) (p : List Char) : List Char :=
  (m.lookup p).getD []

/-- The replacement text `f"XRPLF/actions/{ref.action_path}@{latest_hash}"`. -/
def new_ref (m : List (List Char × List Char)) (p : List Char) : List Char :=
  actionsLit ++ p ++ '@' :: lookupD m p

/-- Worker for Python `str.replace`: scan left to right; at each position
not inside an already-replaced occurrence (`skip = 0`), if `old` starts
here, emit `new` and skip over the occurrence; otherwise copy one
character.  Requires `old ≠ []` for faithfulness (guarded by the caller). -/
def raAux (old new : List Char) (skip : Nat) : List Char → List Char
  | [] => []
  | c :: cs =>
    match skip with
    | k + 1 => raAux old new k cs
    | 0 =>
      if old.isPrefixOf (c :: cs) then
        new ++ raAux old new (old.length - 1) cs
      else c :: raAux old new 0 cs

/-- Python `content.replace(old, new)`: replace every non-overlapping
occurrence of `old`, scanning left to right.  The script only ever calls
this with `old` a full match (at least 56 characters), so the degenerate
empty-`old` case is mapped to the identity. -/
def replaceAll (old new s : List Char) : List Char :=
  if old = [] then s else raAux old new 0 s

/-- One iteration of the inner loop of `main` over a file's references:
skip a reference whose current hash equals the resolved one, otherwise
substitute the whole original matched text and count one update.  The
accumulator is the in-memory content and the number of updates so far. -/
def updateStep (m : List (List Char × List Char)) (acc : List Char × Nat)
    (r : ActionReference) : List Char × Nat :=
  if r.current_hash = lookupD m r.action_path then acc
  else (replaceAll r.full_match (new_ref m r.action_path) acc.1, acc.2 + 1)

/-- The inner loop of `main` over one file's references. -/
def processRefs (m : List (List Char × List Char)) (c0 : List Char)
    (refs : List ActionReference) : List Char × Nat :=
  refs.foldl (updateStep m) (c0, 0)

/-- Per-file rewrite: files not in `all_references` (not `.yml`, or no
matches) have an empty reference list and are left untouched with zero
updates. -/
def rewriteFile (m : List (List Char × List Char)) (f : WFile) :
    WFile × Nat :=
  let res := processRefs m f.content (relevantRefs f)
  (⟨f.path, res.1⟩, res.2)

/-- The observable outcome of one run of `main`. -/
structure RunResult where
  files : List WFile
  written : List (List Char)
  total_updates : Nat
  files_modified : Nat
  queries : List (List Char)
deriving DecidableEq, Repr

/-- The update loop of `main` after the hash mapping has been built:
rewrite each file in memory, count updates and modified files, and write
changed files back unless `--dry-run` was given. -/
def applyUpdates (dryRun : Bool) (m : List (List Char × List Char))
    (queryLog : List (List Char)) (files : List WFile) : RunResult :=
  let upd := files.map (rewriteFile m)
  let changed := (files.zip upd).filter
    (fun p => decide (p.2.1.content ≠ p.1.content))
  { files := if dryRun then files else upd.map (fun u => u.1)
    written := if dryRun then [] else changed.map (fun p => p.1.path)
    total_updates := (upd.map (fun u => u.2)).sum
    files_modified := changed.length
    queries := queryLog }

/-- The function `main` on a directory state: scan, resolve (aborting on
the first query failure), then apply the updates. -/
def mainRun (dryRun : Bool) (env : List Char → Bool × List Char)
    (files : List WFile) : Except GitFailure RunResult :=
  match get_hash_mapping env (collect_all_references files) with
  | Except.error e => Except.error e
  | Except.ok ml => Except.ok (applyUpdates dryRun ml.1 ml.2 files)

/-- Spec, pattern semantics: the path component is either a literal
`.github/workflows/` prefix followed by one or more non-whitespace,
non-`@` characters, or one or more characters of the restricted path
class. -/
def PathGrammar (p : List Char) : Prop :=
  (∃ q, p = gwLit ++ q ∧ q ≠ [] ∧ ∀ c ∈ q, c ≠ '@' ∧ isPySpace c = false) ∨
  (p ≠ [] ∧ ∀ c ∈ p, isPathChar c = true)

/-- Spec, pattern semantics: a 40-character lowercase hex string. -/
def HashGrammar (h : List Char) : Prop :=
  h.length = 40 ∧ ∀ c ∈ h, isHexChar c = true

/-- Spec, pattern semantics: an occurrence of the full reference grammar at
the head of `s` — the literal prefix, the path, `@`, the hash — with `rest`
the remaining input, and the extracted fields exactly the two component
substrings. -/
def MatchSpec (s : List Char) (r : ActionReference) (rest : List Char) : Prop :=
  ∃ p h, PathGrammar p ∧ HashGrammar h ∧
    r = ⟨actionsLit ++ p ++ '@' :: h, p, h⟩ ∧
    s = actionsLit ++ p ++ '@' :: (h ++ rest)

/-- Occurrence of the word `w` in `s` at position `j`. -/
def occursAt (w s : List Char) (j : Nat) : Prop :=
  w <+: s.drop j

/-- All action paths referenced in the scan results, in order, with
multiplicity. -/
def allPaths (all : List (WFile × List ActionReference)) : List (List Char) :=
  (all.flatMap (fun fr => fr.2)).map (fun r => r.action_path)

def hashA : List Char := List.replicate 40 'a'

def hashB : List Char := List.replicate 40 'b'

def samplePath : List Char := ("get-nproc").data

def sampleRefText : List Char := actionsLit ++ samplePath ++ '@' :: hashA

def sampleFile : WFile := ⟨("ci.yml").data, sampleRefText⟩

def sampleTxtFile : WFile := ⟨("notes.txt").data, sampleRefText⟩

def sampleEnv : List Char → Bool × List Char := fun _ => (true, hashB)

def sampleEnvBad : List Char → Bool × List Char := fun _ => (false, [])

instance (env : List Char → Bool × List Char) (p : List Char) :
    Decidable (queryOk env p) :=
  decidable_of_iff ((env p).1 = true ∧ resolvedHash env p ≠ []) Iff.rfl

def sampleRef : ActionReference :=
  ⟨actionsLit ++ samplePath ++ '@' :: hashA, samplePath, hashA⟩

def sampleResDry : RunResult :=
  applyUpdates true [(samplePath, hashB)] [samplePath] [sampleFile]

def sampleResNorm : RunResult :=
  applyUpdates false [(samplePath, hashB)] [samplePath] [sampleFile]

/-- The structural shape every scanner-produced reference has. -/
def RefShape (r : ActionReference) : Prop :=
  r.full_match = actionsLit ++ r.action_path ++ '@' :: r.current_hash ∧
  PathGrammar r.action_path ∧ HashGrammar r.current_hash

/-- The part of a reference before its hash: prefix, path and the `@`. -/
def headPart (r : ActionReference) : List Char :=
  actionsLit ++ r.action_path ++ ['@']

/-- Position `i` lies inside the match of `r` starting at `a`. -/
def inSpan (a : Nat) (r : ActionReference) (i : Nat) : Prop :=
  a ≤ i ∧ i < a + r.full_match.length

/-- Position `i` lies inside the final 40 characters (the hash) of the
match of `r` starting at `a`. -/
def inHashSpan (a : Nat) (r : ActionReference) (i : Nat) : Prop :=
  a + r.full_match.length - 40 ≤ i ∧ i < a + r.full_match.length

/-- Position `i` lies inside the hash of some match of the scan of `s`. -/
def InHS (s : List Char) (i : Nat) : Prop :=
  ∃ pr ∈ matchesOf s, inHashSpan pr.1 pr.2 i

/-- The rewrite invariant: relative to the original content `c0`, the
current content `c` has the same length, agrees with `c0` everywhere
outside the hash spans of the original matches, and carries hex characters
on those spans. -/
def RewriteInv (c0 c : List Char) : Prop :=
  c.length = c0.length ∧
  (∀ i, ¬ InHS c0 i → (c)[i]? = (c0)[i]?) ∧
  (∀ i, InHS c0 i → ∃ hc, (c)[i]? = some hc ∧ isHexChar hc = true)

instance (a : Nat) (r : ActionReference) (i : Nat) :
    Decidable (inSpan a r i) :=
  decidable_of_iff (a ≤ i ∧ i < a + r.full_match.length) Iff.rfl

instance (a : Nat) (r : ActionReference) (i : Nat) :
    Decidable (inHashSpan a r i) :=
  decidable_of_iff
    (a + r.full_match.length - 40 ≤ i ∧ i < a + r.full_match.length) Iff.rfl

instance (s : List Char) (i : Nat) : Decidable (InHS s i) :=
  List.decidableBEx _ (matchesOf s)

instance (h : List Char) : Decidable (HashGrammar h) :=
  decidable_of_iff (h.length = 40 ∧ ∀ c ∈ h, isHexChar c = true) Iff.rfl

def cexPathStr : List Char := (".github/workflows/XRPLF/actions/foo").data

def cexContent : List Char :=
  ("XRPLF/actions/foo@").data ++ hashA ++ '\n' ::
    (("XRPLF/actions/").data ++ cexPathStr ++ '@' :: hashA)

def cexFile : WFile := ⟨("a.yml").data, cexContent⟩

def cexEnv : List Char → Bool × List Char :=
  fun p => if p = ("foo").data then (true, hashB) else (true, hashA)

def onlyHeadMarker (s : List Char) : Prop :=
  ∀ j, occursAt actionsLit s j → j = 0

instance (w s : List Char) (j : Nat) : Decidable (occursAt w s j) :=
  decidable_of_iff (w.isPrefixOf (s.drop j) = true)
    List.isPrefixOf_iff_prefix

instance (s : List Char) : Decidable (onlyHeadMarker s) :=
  decidable_of_iff (∀ j < s.length, occursAt actionsLit s j → j = 0) (by
    constructor
    · intro h j hj
      by_cases hlt : j < s.length
      · exact h j hlt hj
      · exfalso
        have h1 : actionsLit.length ≤ (s.drop j).length := hj.length_le
        rw [List.length_drop] at h1
        have h2 : actionsLit.length = 14 := rfl
        omega
    · intro h j _ hj
      exact h j hj)

def hashSeg (c : List Char) (a : Nat) (r : ActionReference) : List Char :=
  (c.drop (a + r.full_match.length - 40)).take 40

theorem isPySpace_iff {c : Char} :
    isPySpace c = true ↔
      (9 ≤ c.toNat ∧ c.toNat ≤ 13) ∨ (28 ≤ c.toNat ∧ c.toNat ≤ 31) ∨
      c.toNat = 32 ∨ c.toNat = 0x85 ∨ c.toNat = 0xa0 ∨ c.toNat = 0x1680 ∨
      (0x2000 ≤ c.toNat ∧ c.toNat ≤ 0x200a) ∨ c.toNat = 0x2028 ∨
      c.toNat = 0x2029 ∨ c.toNat = 0x202f ∨ c.toNat = 0x205f ∨
      c.toNat = 0x3000 := by
  simp [isPySpace, or_assoc]

theorem isPathChar_iff {c : Char} :
    isPathChar c = true ↔
      (97 ≤ c.toNat ∧ c.toNat ≤ 122) ∨ (48 ≤ c.toNat ∧ c.toNat ≤ 57) ∨
      c.toNat = 46 ∨ c.toNat = 95 ∨ c.toNat = 47 ∨ c.toNat = 45 := by
  simp [isPathChar, or_assoc]

theorem isHexChar_iff {c : Char} :
    isHexChar c = true ↔
      (97 ≤ c.toNat ∧ c.toNat ≤ 102) ∨ (48 ≤ c.toNat ∧ c.toNat ≤ 57) := by
  simp [isHexChar]

theorem isB1Char_iff {c : Char} :
    isB1Char c = true ↔ c ≠ '@' ∧ isPySpace c = false := by
  simp [isB1Char, beq_eq_false_iff_ne]

theorem isPathChar_ne_at {c : Char} (h : isPathChar c = true) : c ≠ '@' := by
  intro he
  rw [he] at h
  exact absurd h (by decide)

theorem isPathChar_isB1 {c : Char} (h : isPathChar c = true) :
    isB1Char c = true := by
  rw [isB1Char_iff]
  refine ⟨isPathChar_ne_at h, ?_⟩
  rw [isPathChar_iff] at h
  rw [← Bool.not_eq_true, isPySpace_iff]
  omega

theorem isHexChar_isPathChar {c : Char} (h : isHexChar c = true) :
    isPathChar c = true := by
  rw [isHexChar_iff] at h
  rw [isPathChar_iff]
  omega

theorem isHexChar_ne_at {c : Char} (h : isHexChar c = true) : c ≠ '@' :=
  isPathChar_ne_at (isHexChar_isPathChar h)

theorem isHexChar_isB1 {c : Char} (h : isHexChar c = true) :
    isB1Char c = true :=
  isPathChar_isB1 (isHexChar_isPathChar h)

theorem takeWhile_run_stop (f : Char → Bool) (p : List Char) (a : Char)
    (u : List Char) (hp : ∀ c ∈ p, f c = true) (ha : f a = false) :
    (p ++ a :: u).takeWhile f = p ∧ (p ++ a :: u).dropWhile f = a :: u := by
  induction p with
  | nil =>
    constructor
    · simp [List.takeWhile_cons, ha]
    · simp [List.dropWhile_cons, ha]
  | cons c cs ih =>
    have hc : f c = true := hp c (by simp)
    have ih2 := ih (fun d hd => hp d (by simp [hd]))
    constructor
    · simp [List.takeWhile_cons, hc, ih2.1]
    · simp [List.dropWhile_cons, hc, ih2.2]

theorem matchHash_eq_some {s h rest : List Char} :
    matchHash s = some (h, rest) ↔ HashGrammar h ∧ s = h ++ rest := by
  constructor
  · intro hm
    simp only [matchHash] at hm
    split at hm
    · rename_i hcond
      simp only [Option.some.injEq, Prod.mk.injEq] at hm
      obtain ⟨rfl, rfl⟩ := hm
      refine ⟨⟨hcond.1, fun c hc => List.all_eq_true.mp hcond.2 c hc⟩, ?_⟩
      exact (List.take_append_drop 40 s).symm
    · exact absurd hm (by simp)
  · rintro ⟨⟨hlen, hhex⟩, rfl⟩
    have ht : (h ++ rest).take 40 = h := List.take_left' hlen
    have hd : (h ++ rest).drop 40 = rest := List.drop_left' hlen
    simp only [matchHash, ht, hd]
    rw [if_pos ⟨hlen, List.all_eq_true.mpr hhex⟩]

theorem gwLit_no_at : ∀ c ∈ gwLit, c ≠ '@' := by decide

theorem actionsLit_no_at : ∀ c ∈ actionsLit, c ≠ '@' := by decide

theorem append_at_inj {a b u v : List Char} (ha : ∀ c ∈ a, c ≠ '@')
    (hb : ∀ c ∈ b, c ≠ '@') (h : a ++ '@' :: u = b ++ '@' :: v) :
    a = b ∧ u = v := by
  induction a generalizing b with
  | nil =>
    cases b with
    | nil => simpa using h
    | cons d ds =>
      simp only [List.nil_append, List.cons_append, List.cons.injEq] at h
      exact absurd h.1.symm (hb d (by simp))
  | cons c cs ih =>
    cases b with
    | nil =>
      simp only [List.cons_append, List.nil_append, List.cons.injEq] at h
      exact absurd h.1 (ha c (by simp))
    | cons d ds =>
      simp only [List.cons_append, List.cons.injEq] at h
      have := ih (fun x hx => ha x (by simp [hx]))
        (fun x hx => hb x (by simp [hx])) h.2
      exact ⟨by rw [h.1, this.1], this.2⟩

theorem matchBranch1_eq_some {t p h rest : List Char} :
    matchBranch1 t = some (p, h, rest) ↔
      ∃ q, p = gwLit ++ q ∧ q ≠ [] ∧ (∀ c ∈ q, isB1Char c = true) ∧
        HashGrammar h ∧ t = gwLit ++ q ++ '@' :: (h ++ rest) := by
  constructor
  · intro hm
    simp only [matchBranch1] at hm
    split at hm
    · rename_i hpre
      obtain ⟨t', rfl⟩ := List.isPrefixOf_iff_prefix.mp hpre
      rw [List.drop_left] at hm
      split at hm
      · exact absurd hm (by simp)
      · rename_i hrun
        split at hm
        · exact absurd hm (by simp)
        · rename_i a u hdw
          split at hm
          · rename_i hat
            subst hat
            split at hm
            · rename_i h' rest' hmh
              simp only [Option.some.injEq, Prod.mk.injEq] at hm
              obtain ⟨hp2, rfl, rfl⟩ := hm
              obtain ⟨hg, rfl⟩ := matchHash_eq_some.mp hmh
              refine ⟨t'.takeWhile isB1Char, hp2.symm, hrun, ?_, hg, ?_⟩
              · intro c hc
                exact List.mem_takeWhile_imp hc
              · conv_lhs =>
                  rw [← List.takeWhile_append_dropWhile isB1Char t']
                rw [hdw, List.append_assoc]
            · exact absurd hm (by simp)
          · exact absurd hm (by simp)
    · exact absurd hm (by simp)
  · rintro ⟨q, rfl, hq0, hqB, hg, rfl⟩
    have hstop : isB1Char '@' = false := by decide
    have hrs := takeWhile_run_stop isB1Char q '@' (h ++ rest) hqB hstop
    have hpre : gwLit.isPrefixOf (gwLit ++ q ++ '@' :: (h ++ rest)) = true := by
      rw [List.isPrefixOf_iff_prefix, List.append_assoc]
      exact List.prefix_append gwLit (q ++ '@' :: (h ++ rest))
    simp only [matchBranch1, hpre, if_true]
    rw [List.append_assoc, List.drop_left, hrs.1, hrs.2]
    rw [if_neg (by simpa using hq0)]
    simp [matchHash_eq_some.mpr ⟨hg, rfl⟩]

theorem matchBranch2_eq_some {t p h rest : List Char} :
    matchBranch2 t = some (p, h, rest) ↔
      p ≠ [] ∧ (∀ c ∈ p, isPathChar c = true) ∧
        HashGrammar h ∧ t = p ++ '@' :: (h ++ rest) := by
  constructor
  · intro hm
    simp only [matchBranch2] at hm
    split at hm
    · exact absurd hm (by simp)
    · rename_i hrun
      split at hm
      · exact absurd hm (by simp)
      · rename_i a u hdw
        split at hm
        · rename_i hat
          subst hat
          split at hm
          · rename_i h' rest' hmh
            simp only [Option.some.injEq, Prod.mk.injEq] at hm
            obtain ⟨hp2, rfl, rfl⟩ := hm
            obtain ⟨hg, rfl⟩ := matchHash_eq_some.mp hmh
            refine ⟨hp2 ▸ hrun, ?_, hg, ?_⟩
            · intro c hc
              rw [← hp2] at hc
              exact List.mem_takeWhile_imp hc
            · conv_lhs =>
                rw [← List.takeWhile_append_dropWhile isPathChar t]
              rw [hdw, hp2]
          · exact absurd hm (by simp)
        · exact absurd hm (by simp)
  · rintro ⟨hp0, hpc, hg, rfl⟩
    have hstop : isPathChar '@' = false := by decide
    have hrs := takeWhile_run_stop isPathChar p '@' (h ++ rest) hpc hstop
    simp only [matchBranch2]
    rw [hrs.1, hrs.2]
    rw [if_neg (by simpa using hp0)]
    simp [matchHash_eq_some.mpr ⟨hg, rfl⟩]

theorem matchAt_eq_some {s : List Char} {r : ActionReference}
    {rest : List Char} :
    matchAt s = some (r, rest) ↔ MatchSpec s r rest := by
  constructor
  · intro hm
    simp only [matchAt] at hm
    split at hm
    · rename_i hpre
      obtain ⟨t, rfl⟩ := List.isPrefixOf_iff_prefix.mp hpre
      rw [List.drop_left] at hm
      split at hm
      · rename_i p h rest' hb1
        simp only [Option.some.injEq, Prod.mk.injEq] at hm
        obtain ⟨rfl, rfl⟩ := hm
        obtain ⟨q, rfl, hq0, hqB, hg, rfl⟩ := matchBranch1_eq_some.mp hb1
        refine ⟨gwLit ++ q, h,
          Or.inl ⟨q, rfl, hq0, fun c hc => isB1Char_iff.mp (hqB c hc)⟩,
          hg, rfl, by simp [List.append_assoc]⟩
      · rename_i hb1
        split at hm
        · rename_i p h rest' hb2
          simp only [Option.some.injEq, Prod.mk.injEq] at hm
          obtain ⟨rfl, rfl⟩ := hm
          obtain ⟨hp0, hpc, hg, rfl⟩ := matchBranch2_eq_some.mp hb2
          exact ⟨p, h, Or.inr ⟨hp0, hpc⟩, hg, rfl, rfl⟩
        · exact absurd hm (by simp)
    · exact absurd hm (by simp)
  · rintro ⟨p, h, hPG, hg, rfl, rfl⟩
    have hpre : actionsLit.isPrefixOf
        (actionsLit ++ p ++ '@' :: (h ++ rest)) = true := by
      rw [List.append_assoc, List.isPrefixOf_iff_prefix]
      exact List.prefix_append _ _
    simp only [matchAt, hpre, if_true]
    rw [List.append_assoc, List.drop_left]
    rcases hPG with ⟨q, rfl, hq0, hqprops⟩ | ⟨hp0, hpc⟩
    · have hb1 : matchBranch1 ((gwLit ++ q) ++ '@' :: (h ++ rest)) =
          some (gwLit ++ q, h, rest) := by
        rw [List.append_assoc]
        exact matchBranch1_eq_some.mpr ⟨q, rfl, hq0,
          (fun c hc => isB1Char_iff.mpr (hqprops c hc)), hg, rfl⟩
      rw [hb1]
    · rcases hb : matchBranch1 (p ++ '@' :: (h ++ rest)) with _ | ⟨p', h', rest'⟩
      · simp [matchBranch2_eq_some.mpr ⟨hp0, hpc, hg, rfl⟩]
      · obtain ⟨q', hp', hq0', hqB', hg', heq⟩ := matchBranch1_eq_some.mp hb
        rw [List.append_assoc] at heq
        have hinj := append_at_inj
          (fun c hc => isPathChar_ne_at (hpc c hc))
          (fun c hc => by
            rcases List.mem_append.mp hc with hc | hc
            · exact gwLit_no_at c hc
            · exact isB1Char_iff.mp (hqB' c hc) |>.1)
          (by rw [heq, List.append_assoc])
        obtain ⟨hpq, hhr⟩ := hinj
        have hh : h' = h := by
          have e1 : (h ++ rest).take 40 = h := List.take_left' hg.1
          have e2 : (h' ++ rest').take 40 = h' := List.take_left' hg'.1
          rw [← e1, ← e2, hhr]
        have hrr : rest' = rest := by
          have e1 : (h ++ rest).drop 40 = rest := List.drop_left' hg.1
          have e2 : (h' ++ rest').drop 40 = rest' := List.drop_left' hg'.1
          rw [← e1, ← e2, hhr]
        have hpp : p' = p := by rw [hp', hpq]
        simp [hpp, hh, hrr]

theorem PathGrammar_ne_nil {p : List Char} (h : PathGrammar p) : p ≠ [] := by
  rcases h with ⟨q, rfl, hq0, _⟩ | ⟨hp0, _⟩
  · simp [gwLit]
  · exact hp0

theorem PathGrammar_no_at {p : List Char} (h : PathGrammar p) :
    ∀ c ∈ p, c ≠ '@' := by
  rcases h with ⟨q, rfl, _, hq⟩ | ⟨_, hp⟩
  · intro c hc
    rcases List.mem_append.mp hc with hc | hc
    · exact gwLit_no_at c hc
    · exact (hq c hc).1
  · exact fun c hc => isPathChar_ne_at (hp c hc)

theorem gwLit_no_space : ∀ c ∈ gwLit, isPySpace c = false := by decide

theorem PathGrammar_no_space {p : List Char} (h : PathGrammar p) :
    ∀ c ∈ p, isPySpace c = false := by
  rcases h with ⟨q, rfl, _, hq⟩ | ⟨_, hp⟩
  · intro c hc
    rcases List.mem_append.mp hc with hc | hc
    · exact gwLit_no_space c hc
    · exact (hq c hc).2
  · intro c hc
    exact (isB1Char_iff.mp (isPathChar_isB1 (hp c hc))).2

theorem HashGrammar_no_at {h : List Char} (hg : HashGrammar h) :
    ∀ c ∈ h, c ≠ '@' :=
  fun c hc => isHexChar_ne_at (hg.2 c hc)

theorem HashGrammar_no_space {h : List Char} (hg : HashGrammar h) :
    ∀ c ∈ h, isPySpace c = false :=
  fun c hc => (isB1Char_iff.mp (isHexChar_isB1 (hg.2 c hc))).2

theorem matchAt_shape {s : List Char} {r : ActionReference} {rest : List Char}
    (hm : matchAt s = some (r, rest)) :
    r.full_match = actionsLit ++ r.action_path ++ '@' :: r.current_hash ∧
    PathGrammar r.action_path ∧ HashGrammar r.current_hash ∧
    s = r.full_match ++ rest := by
  obtain ⟨p, h, hPG, hg, rfl, hs⟩ := matchAt_eq_some.mp hm
  refine ⟨rfl, hPG, hg, ?_⟩
  rw [hs]
  simp [List.append_assoc]

theorem matchAt_full_length {s : List Char} {r : ActionReference}
    {rest : List Char} (hm : matchAt s = some (r, rest)) :
    r.full_match.length = 55 + r.action_path.length := by
  obtain ⟨hfull, _, hg, _⟩ := matchAt_shape hm
  rw [hfull]
  simp [actionsLit, hg.1]
  omega

theorem matchAt_full_length_ge {s : List Char} {r : ActionReference}
    {rest : List Char} (hm : matchAt s = some (r, rest)) :
    56 ≤ r.full_match.length := by
  obtain ⟨_, hPG, _, _⟩ := matchAt_shape hm
  have h1 : r.action_path.length ≠ 0 := by
    simpa using PathGrammar_ne_nil hPG
  rw [matchAt_full_length hm]
  omega

theorem matchAt_rest_length {s : List Char} {r : ActionReference}
    {rest : List Char} (hm : matchAt s = some (r, rest)) :
    s.length = r.full_match.length + rest.length := by
  obtain ⟨_, _, _, hs⟩ := matchAt_shape hm
  rw [hs, List.length_append]

theorem matchAt_nil : matchAt [] = none := by decide

theorem scanSk_mem {s : List Char} :
    ∀ {skip pos a : Nat} {r : ActionReference},
      (a, r) ∈ scanSk skip pos s →
      ∃ k, a = pos + k ∧ skip ≤ k ∧
        ∃ rest, matchAt (s.drop k) = some (r, rest) := by
  induction s with
  | nil => intro skip pos a r h; simp [scanSk] at h
  | cons c cs ih =>
    intro skip pos a r h
    match skip with
    | k + 1 =>
      simp only [scanSk] at h
      obtain ⟨k', rfl, hk', rest, hm⟩ := ih h
      exact ⟨k' + 1, by omega, by omega, rest, by
        rwa [List.drop_succ_cons]⟩
    | 0 =>
      simp only [scanSk] at h
      rcases hm : matchAt (c :: cs) with _ | ⟨rm, restm⟩
      · rw [hm] at h
        obtain ⟨k', rfl, _, rest, hm'⟩ := ih h
        exact ⟨k' + 1, by omega, by omega, rest, by rwa [List.drop_succ_cons]⟩
      · rw [hm] at h
        rcases List.mem_cons.mp h with he | h
        · obtain ⟨rfl, rfl⟩ := Prod.mk.injEq _ _ _ _ ▸ he
          exact ⟨0, by omega, by omega, restm, by simpa using hm⟩
        · obtain ⟨k', rfl, _, rest, hm'⟩ := ih h
          exact ⟨k' + 1, by omega, by omega, rest, by
            rwa [List.drop_succ_cons]⟩

theorem scanSk_lb {s : List Char} {skip pos : Nat} {pr : Nat × ActionReference}
    (h : pr ∈ scanSk skip pos s) : pos + skip ≤ pr.1 := by
  obtain ⟨a, r⟩ := pr
  obtain ⟨k, hk, hsk, _⟩ := scanSk_mem h
  simp only [hk]
  omega

theorem scanSk_cover {s : List Char} :
    ∀ {skip pos j : Nat}, skip ≤ j →
    ∀ {r0 : ActionReference} {rest0 : List Char},
      matchAt (s.drop j) = some (r0, rest0) →
      ∃ pr ∈ scanSk skip pos s,
        pr.1 ≤ pos + j ∧ pos + j < pr.1 + pr.2.full_match.length := by
  induction s with
  | nil =>
    intro skip pos j hskip r0 rest0 hj
    rw [List.drop_nil] at hj
    exact absurd hj (by simp [matchAt_nil])
  | cons c cs ih =>
    intro skip pos j hskip r0 rest0 hj
    match skip with
    | k + 1 =>
      obtain ⟨j2, rfl⟩ : ∃ j2, j = j2 + 1 := ⟨j - 1, by omega⟩
      rw [List.drop_succ_cons] at hj
      obtain ⟨pr, hmem, h1, h2⟩ := @ih k (pos + 1) j2 (by omega) r0 rest0 hj
      refine ⟨pr, by simpa [scanSk] using hmem, by omega, by omega⟩
    | 0 =>
      rcases hm : matchAt (c :: cs) with _ | ⟨rm, restm⟩
      · match j with
        | 0 => rw [List.drop_zero] at hj; rw [hj] at hm; cases hm
        | j2 + 1 =>
          rw [List.drop_succ_cons] at hj
          obtain ⟨pr, hmem, h1, h2⟩ := @ih 0 (pos + 1) j2 (by omega) r0 rest0 hj
          refine ⟨pr, ?_, by omega, by omega⟩
          simp only [scanSk, hm]
          exact hmem
      · by_cases hjl : j < rm.full_match.length
        · refine ⟨(pos, rm), ?_, by omega, by simp; omega⟩
          simp only [scanSk, hm]
          exact List.mem_cons_self _ _
        · have hlen := matchAt_full_length_ge hm
          obtain ⟨j2, rfl⟩ : ∃ j2, j = j2 + 1 := ⟨j - 1, by omega⟩
          rw [List.drop_succ_cons] at hj
          obtain ⟨pr, hmem, h1, h2⟩ :=
            @ih (rm.full_match.length - 1) (pos + 1) j2 (by omega) r0 rest0 hj
          refine ⟨pr, ?_, by omega, by omega⟩
          simp only [scanSk, hm]
          exact List.mem_cons_of_mem _ hmem

theorem scanSk_pairwise (s : List Char) :
    ∀ (skip pos : Nat),
      (scanSk skip pos s).Pairwise
        (fun x y => x.1 + x.2.full_match.length ≤ y.1) := by
  induction s with
  | nil => intro skip pos; simp [scanSk]
  | cons c cs ih =>
    intro skip pos
    match skip with
    | k + 1 => simpa [scanSk] using ih k (pos + 1)
    | 0 =>
      rcases hm : matchAt (c :: cs) with _ | ⟨rm, restm⟩
      · simpa [scanSk, hm] using ih 0 (pos + 1)
      · simp only [scanSk, hm]
        refine List.Pairwise.cons ?_ (ih _ _)
        intro y hy
        have := scanSk_lb hy
        have hlen := matchAt_full_length_ge hm
        simp only
        omega

theorem scanSk_skip_drop (s : List Char) :
    ∀ (skip pos : Nat),
      scanSk skip pos s = scanSk 0 (pos + skip) (s.drop skip) := by
  induction s with
  | nil => intro skip pos; simp [scanSk]
  | cons c cs ih =>
    intro skip pos
    match skip with
    | 0 => rfl
    | k + 1 =>
      simp only [scanSk, List.drop_succ_cons]
      rw [ih k (pos + 1)]
      congr 1
      omega

theorem scanSk_cons_some {c : Char} {cs : List Char} {r : ActionReference}
    {rest : List Char} (hm : matchAt (c :: cs) = some (r, rest)) (pos : Nat) :
    scanSk 0 pos (c :: cs) =
      (pos, r) :: scanSk 0 (pos + r.full_match.length)
        ((c :: cs).drop r.full_match.length) := by
  have hlen := matchAt_full_length_ge hm
  obtain ⟨L, hL⟩ : ∃ L, r.full_match.length = L + 1 :=
    ⟨r.full_match.length - 1, by omega⟩
  simp only [scanSk, hm]
  rw [scanSk_skip_drop, hL, List.drop_succ_cons]
  simp only [Nat.add_sub_cancel]
  have harith : pos + 1 + L = pos + (L + 1) := by omega
  rw [harith]

theorem scanSk_cons_none {c : Char} {cs : List Char}
    (hm : matchAt (c :: cs) = none) (pos : Nat) :
    scanSk 0 pos (c :: cs) = scanSk 0 (pos + 1) cs := by
  simp only [scanSk, hm]

theorem matchesOf_sound {s : List Char} {pr : Nat × ActionReference}
    (h : pr ∈ matchesOf s) :
    ∃ rest, matchAt (s.drop pr.1) = some (pr.2, rest) := by
  obtain ⟨a, r⟩ := pr
  obtain ⟨k, hk, _, rest, hm⟩ := scanSk_mem h
  simp only [Nat.zero_add] at hk
  subst hk
  exact ⟨rest, hm⟩

theorem matchesOf_occursAt {s : List Char} {pr : Nat × ActionReference}
    (h : pr ∈ matchesOf s) : occursAt pr.2.full_match s pr.1 := by
  obtain ⟨rest, hm⟩ := matchesOf_sound h
  obtain ⟨_, _, _, hs⟩ := matchAt_shape hm
  exact ⟨rest, hs.symm⟩

/-- Claim C2: the scanner's matches are exactly the non-overlapping
occurrences of the reference grammar, and each match extracts exactly the
path and hash component substrings, which contain no whitespace.  Stated
as: (a) a match attempt at any position succeeds exactly on the grammar of
the specification, with the extracted fields the two component substrings;
(b) every reported match is an occurrence of its full text at its position,
with whitespace-free extracted fields; (c) reported matches are
non-overlapping and in positional order; (d) every position where the
grammar occurs is covered by some reported match. -/
theorem c2_scanner_matches_grammar (s : List Char) :
    (∀ (r : ActionReference) (rest : List Char),
      matchAt s = some (r, rest) ↔ MatchSpec s r rest) ∧
    (∀ pr ∈ matchesOf s,
      pr.2.full_match =
        actionsLit ++ pr.2.action_path ++ '@' :: pr.2.current_hash ∧
      occursAt pr.2.full_match s pr.1 ∧
      (∀ c ∈ pr.2.action_path, isPySpace c = false) ∧
      (∀ c ∈ pr.2.current_hash, isPySpace c = false)) ∧
    (matchesOf s).Pairwise
      (fun x y => x.1 + x.2.full_match.length ≤ y.1) ∧
    (∀ (j : Nat) (r : ActionReference) (rest : List Char),
      MatchSpec (s.drop j) r rest →
      ∃ pr ∈ matchesOf s,
        pr.1 ≤ j ∧ j < pr.1 + pr.2.full_match.length) := by
  refine ⟨fun r rest => matchAt_eq_some, ?_, scanSk_pairwise s 0 0, ?_⟩
  · intro pr hpr
    obtain ⟨rest, hm⟩ := matchesOf_sound hpr
    obtain ⟨hfull, hPG, hg, _⟩ := matchAt_shape hm
    exact ⟨hfull, matchesOf_occursAt hpr,
      PathGrammar_no_space hPG, HashGrammar_no_space hg⟩
  · intro j r rest hspec
    have hm : matchAt (s.drop j) = some (r, rest) := matchAt_eq_some.mpr hspec
    obtain ⟨pr, hmem, h1, h2⟩ := scanSk_cover (Nat.zero_le j) hm
    exact ⟨pr, hmem, by simpa using h1, by simpa using h2⟩

theorem exceptBind_ok {ε α β : Type} (x : α) (f : α → Except ε β) :
    (Except.ok x >>= f : Except ε β) = f x := rfl

theorem exceptBind_error {ε α β : Type} (e : ε) (f : α → Except ε β) :
    ((Except.error e : Except ε α) >>= f : Except ε β) = Except.error e := rfl

theorem get_latest_ok {env : List Char → Bool × List Char} {p h : List Char}
    (hk : get_latest_commit_for_path env p = Except.ok h) :
    h = resolvedHash env p ∧ queryOk env p := by
  simp only [get_latest_commit_for_path] at hk
  split at hk
  · cases hk
  · rename_i h1
    split at hk
    · cases hk
    · rename_i h2
      cases hk
      exact ⟨rfl, by simpa using h1, h2⟩

theorem get_latest_of_queryOk {env : List Char → Bool × List Char}
    {p : List Char} (hq : queryOk env p) :
    get_latest_commit_for_path env p = Except.ok (resolvedHash env p) := by
  obtain ⟨h1, h2⟩ := hq
  simp only [resolvedHash] at h2 ⊢
  simp only [get_latest_commit_for_path]
  rw [if_neg (by simp [h1]), if_neg h2]

theorem get_latest_of_fail {env : List Char → Bool × List Char}
    {p : List Char} (hq : ¬ queryOk env p) :
    ∃ e, get_latest_commit_for_path env p = Except.error e := by
  simp only [get_latest_commit_for_path]
  by_cases h1 : (env p).1 = false
  · exact ⟨GitFailure.processFailed p, by rw [if_pos h1]⟩
  · refine ⟨GitFailure.emptyHash p, ?_⟩
    rw [if_neg h1]
    rw [if_pos ?_]
    by_contra h2
    exact hq ⟨by simpa using h1, by simpa [resolvedHash] using h2⟩

/-- The resolver state invariant plus its postcondition, proved for the
fold underlying `get_hash_mapping`. -/
theorem ghm_fold {env : List Char → Bool × List Char} :
    ∀ (L : List ActionReference) (m0 : List (List Char × List Char))
      (log0 : List (List Char)),
      m0.map Prod.fst = log0 → log0.Nodup →
      (∀ pr ∈ m0, pr.2 = resolvedHash env pr.1 ∧ queryOk env pr.1) →
      (match L.foldlM (ghmStep env) (m0, log0) with
       | Except.ok ml =>
          ml.1.map Prod.fst = ml.2 ∧ ml.2.Nodup ∧
          (∀ pr ∈ ml.1, pr.2 = resolvedHash env pr.1 ∧ queryOk env pr.1) ∧
          (∀ p, p ∈ ml.2 ↔ p ∈ log0 ∨ ∃ r ∈ L, r.action_path = p)
       | Except.error _ => ∃ r ∈ L, ¬ queryOk env r.action_path) := by
  intro L
  induction L with
  | nil =>
    intro m0 log0 hmf hnd hval
    simp only [List.foldlM_nil]
    exact ⟨hmf, hnd, hval, fun p => by simp⟩
  | cons r L ih =>
    intro m0 log0 hmf hnd hval
    rw [List.foldlM_cons]
    by_cases hin : (m0.lookup r.action_path).isSome
    · have hstep : ghmStep env (m0, log0) r = Except.ok (m0, log0) := by
        simp only [ghmStep]
        rw [if_pos hin]
      rw [hstep, exceptBind_ok]
      have hmem : r.action_path ∈ log0 := by
        rw [List.lookup_isSome_iff] at hin
        obtain ⟨pr, hpr, hbeq⟩ := hin
        rw [← hmf]
        exact List.mem_map.mpr ⟨pr, hpr, (beq_iff_eq.mp hbeq).symm⟩
      have hrec := ih m0 log0 hmf hnd hval
      split at hrec
      · rename_i ml heq
        refine ⟨hrec.1, hrec.2.1, hrec.2.2.1, fun p => ?_⟩
        rw [hrec.2.2.2 p]
        constructor
        · rintro (h | ⟨r2, hr2, rfl⟩)
          · exact Or.inl h
          · exact Or.inr ⟨r2, List.mem_cons_of_mem _ hr2, rfl⟩
        · rintro (h | ⟨r2, hr2, rfl⟩)
          · exact Or.inl h
          · rcases List.mem_cons.mp hr2 with rfl | hr2
            · exact Or.inl hmem
            · exact Or.inr ⟨r2, hr2, rfl⟩
      · rename_i heq2 heq
        obtain ⟨r2, hr2, hq⟩ := hrec
        exact ⟨r2, List.mem_cons_of_mem _ hr2, hq⟩
    · by_cases hq : queryOk env r.action_path
      · have hstep : ghmStep env (m0, log0) r =
            Except.ok (m0 ++ [(r.action_path, resolvedHash env r.action_path)],
              log0 ++ [r.action_path]) := by
          simp only [ghmStep]
          rw [if_neg hin, get_latest_of_queryOk hq]
        rw [hstep, exceptBind_ok]
        have hnotin : r.action_path ∉ log0 := by
          intro hmem
          apply hin
          rw [List.lookup_isSome_iff]
          rw [← hmf] at hmem
          obtain ⟨pr, hpr, he⟩ := List.mem_map.mp hmem
          exact ⟨pr, hpr, by simp [he]⟩
        have hmf2 : (m0 ++ [(r.action_path, resolvedHash env r.action_path)]).map
            Prod.fst = log0 ++ [r.action_path] := by
          rw [List.map_append, hmf]
          rfl
        have hnd2 : (log0 ++ [r.action_path]).Nodup := by
          rw [List.nodup_append]
          exact ⟨hnd, List.nodup_singleton _, by simpa using hnotin⟩
        have hval2 : ∀ pr ∈ m0 ++ [(r.action_path, resolvedHash env r.action_path)],
            pr.2 = resolvedHash env pr.1 ∧ queryOk env pr.1 := by
          intro pr hpr
          rcases List.mem_append.mp hpr with hpr | hpr
          · exact hval pr hpr
          · rcases List.mem_singleton.mp hpr with rfl
            exact ⟨rfl, hq⟩
        have hrec := ih _ _ hmf2 hnd2 hval2
        split at hrec
        · rename_i ml heq
          refine ⟨hrec.1, hrec.2.1, hrec.2.2.1, fun p => ?_⟩
          rw [hrec.2.2.2 p]
          constructor
          · rintro (h | ⟨r2, hr2, rfl⟩)
            · rcases List.mem_append.mp h with h | h
              · exact Or.inl h
              · rcases List.mem_singleton.mp h with rfl
                exact Or.inr ⟨r, List.mem_cons_self _ _, rfl⟩
            · exact Or.inr ⟨r2, List.mem_cons_of_mem _ hr2, rfl⟩
          · rintro (h | ⟨r2, hr2, rfl⟩)
            · exact Or.inl (List.mem_append_left _ h)
            · rcases List.mem_cons.mp hr2 with rfl | hr2
              · exact Or.inl (List.mem_append_right _ (by simp))
              · exact Or.inr ⟨r2, hr2, rfl⟩
        · rename_i e heq
          obtain ⟨r2, hr2, hq2⟩ := hrec
          exact ⟨r2, List.mem_cons_of_mem _ hr2, hq2⟩
      · obtain ⟨e, he⟩ := get_latest_of_fail hq
        have hstep : ghmStep env (m0, log0) r = Except.error e := by
          simp only [ghmStep]
          rw [if_neg hin, he]
        rw [hstep, exceptBind_error]
        exact ⟨r, List.mem_cons_self _ _, hq⟩

theorem get_hash_mapping_eq_flat (env : List Char → Bool × List Char)
    (all : List (WFile × List ActionReference)) :
    get_hash_mapping env all =
      (all.flatMap (fun fr => fr.2)).foldlM (ghmStep env) ([], []) := by
  suffices h : ∀ (al : List (WFile × List ActionReference))
      (s0 : List (List Char × List Char) × List (List Char)),
      al.foldlM (fun acc fr => fr.2.foldlM (ghmStep env) acc) s0 =
      (al.flatMap (fun fr => fr.2)).foldlM (ghmStep env) s0 by
    exact h all ([], [])
  intro al
  induction al with
  | nil => intro s0; simp
  | cons fr rest ih =>
    intro s0
    rw [List.foldlM_cons, List.flatMap_cons, List.foldlM_append]
    rcases hres : fr.2.foldlM (ghmStep env) s0 with e | s1
    · rw [exceptBind_error, exceptBind_error]
    · rw [exceptBind_ok, exceptBind_ok, ih s1]

theorem get_hash_mapping_ok {env : List Char → Bool × List Char}
    {all : List (WFile × List ActionReference)}
    {m : List (List Char × List Char)} {log : List (List Char)}
    (h : get_hash_mapping env all = Except.ok (m, log)) :
    m.map Prod.fst = log ∧ log.Nodup ∧
    (∀ pr ∈ m, pr.2 = resolvedHash env pr.1 ∧ queryOk env pr.1) ∧
    (∀ p, p ∈ log ↔ p ∈ allPaths all) := by
  have hrec := @ghm_fold env (all.flatMap fun fr => fr.2) [] [] rfl
    List.nodup_nil (by simp)
  rw [← get_hash_mapping_eq_flat, h] at hrec
  refine ⟨hrec.1, hrec.2.1, hrec.2.2.1, fun p => ?_⟩
  rw [hrec.2.2.2 p]
  simp only [List.not_mem_nil, false_or, allPaths, List.mem_map]

theorem get_hash_mapping_error_of_fail {env : List Char → Bool × List Char}
    {all : List (WFile × List ActionReference)}
    (hfail : ∃ p ∈ allPaths all, ¬ queryOk env p) :
    ∃ e, get_hash_mapping env all = Except.error e := by
  rcases hres : get_hash_mapping env all with e | ml
  · exact ⟨e, rfl⟩
  · obtain ⟨m, log⟩ := ml
    obtain ⟨p, hp, hq⟩ := hfail
    have hok := get_hash_mapping_ok hres
    have hpl : p ∈ log := (hok.2.2.2 p).mpr hp
    rw [← hok.1] at hpl
    obtain ⟨pr, hpr, he⟩ := List.mem_map.mp hpl
    exact absurd (he ▸ (hok.2.2.1 pr hpr).2) hq

theorem get_hash_mapping_ok_of_allOk {env : List Char → Bool × List Char}
    {all : List (WFile × List ActionReference)}
    (hall : ∀ p ∈ allPaths all, queryOk env p) :
    ∃ m log, get_hash_mapping env all = Except.ok (m, log) := by
  rcases hres : get_hash_mapping env all with e | ⟨m, log⟩
  · have hrec := @ghm_fold env (all.flatMap fun fr => fr.2) [] [] rfl
      List.nodup_nil (by simp)
    rw [← get_hash_mapping_eq_flat, hres] at hrec
    obtain ⟨r, hr, hq⟩ := hrec
    refine absurd (hall r.action_path ?_) hq
    simp only [allPaths, List.mem_map]
    exact ⟨r, hr, rfl⟩
  · exact ⟨m, log, rfl⟩

theorem lookup_of_mem_nodupKeys {l : List (List Char × List Char)}
    (hnd : (l.map Prod.fst).Nodup) {k b : List Char} (hmem : (k, b) ∈ l) :
    l.lookup k = some b := by
  induction l with
  | nil => cases hmem
  | cons pr l ih =>
    obtain ⟨k2, b2⟩ := pr
    rw [List.map_cons, List.nodup_cons] at hnd
    rcases List.mem_cons.mp hmem with he | hmem2
    · obtain ⟨rfl, rfl⟩ := Prod.mk.injEq _ _ _ _ ▸ he
      simp [List.lookup_cons]
    · have hne : ¬(k == k2) := by
        intro hbeq
        apply hnd.1
        rw [← beq_iff_eq.mp hbeq]
        exact List.mem_map.mpr ⟨(k, b), hmem2, rfl⟩
      rw [List.lookup_cons]
      simp only [hne]
      exact ih hnd.2 hmem2

theorem get_hash_mapping_lookupD {env : List Char → Bool × List Char}
    {all : List (WFile × List ActionReference)}
    {m : List (List Char × List Char)} {log : List (List Char)}
    (h : get_hash_mapping env all = Except.ok (m, log)) {p : List Char}
    (hp : p ∈ allPaths all) : lookupD m p = resolvedHash env p := by
  have hok := get_hash_mapping_ok h
  have hpl : p ∈ log := (hok.2.2.2 p).mpr hp
  rw [← hok.1] at hpl
  obtain ⟨pr, hpr, he⟩ := List.mem_map.mp hpl
  obtain ⟨k, v⟩ := pr
  simp only at he
  subst he
  have hv : v = resolvedHash env k := (hok.2.2.1 _ hpr).1
  rw [lookupD, lookup_of_mem_nodupKeys (hok.1 ▸ hok.2.1) hpr, hv]
  rfl

theorem mainRun_ok_elim {dr : Bool} {env : List Char → Bool × List Char}
    {files : List WFile} {res : RunResult}
    (h : mainRun dr env files = Except.ok res) :
    ∃ m log,
      get_hash_mapping env (collect_all_references files) =
        Except.ok (m, log) ∧ res = applyUpdates dr m log files := by
  simp only [mainRun] at h
  split at h
  · cases h
  · rename_i ml heq
    cases h
    exact ⟨ml.1, ml.2, by rw [heq], rfl⟩

theorem mainRun_error_of_ghm {dr : Bool} {env : List Char → Bool × List Char}
    {files : List WFile} {e : GitFailure}
    (h : get_hash_mapping env (collect_all_references files) =
      Except.error e) : mainRun dr env files = Except.error e := by
  simp only [mainRun, h]

theorem zip_map_filter {α β : Type} (g : α → β) (φ : α → β → Bool) :
    ∀ (l : List α),
      (l.zip (l.map g)).filter (fun p => φ p.1 p.2) =
        (l.filter (fun a => φ a (g a))).map (fun a => (a, g a)) := by
  intro l
  induction l with
  | nil => rfl
  | cons a t ih =>
    simp only [List.map_cons, List.zip_cons_cons, List.filter_cons]
    by_cases h : φ a (g a) = true
    · simp [h, ih]
    · simp only [h]
      rw [if_neg (by simp [h])]
      exact ih

theorem applyUpdates_files_modified (dr : Bool)
    (m : List (List Char × List Char)) (log : List (List Char))
    (files : List WFile) :
    (applyUpdates dr m log files).files_modified =
      (files.filter
        (fun f => decide ((rewriteFile m f).1.content ≠ f.content))).length := by
  simp only [applyUpdates]
  rw [zip_map_filter (rewriteFile m)
    (fun a b => decide (b.1.content ≠ a.content)) files]
  rw [List.length_map]

theorem applyUpdates_written (m : List (List Char × List Char))
    (log : List (List Char)) (files : List WFile) :
    (applyUpdates false m log files).written =
      (files.filter
        (fun f => decide ((rewriteFile m f).1.content ≠ f.content))).map
        (fun f => f.path) := by
  simp only [applyUpdates, if_neg (Bool.false_ne_true)]
  rw [zip_map_filter (rewriteFile m)
    (fun a b => decide (b.1.content ≠ a.content)) files]
  rw [List.map_map]
  rfl

/-- Claim C6: the resolver builds one mapping from action path to latest
commit hash; each distinct path is queried exactly once even when it occurs
in several files or with several current hashes, and the mapping's keys are
exactly the distinct action paths discovered by the scan. -/
theorem count_eq_one_of_mem_nodup {l : List (List Char)} (hnd : l.Nodup)
    {a : List Char} (ha : a ∈ l) : l.count a = 1 := by
  induction l with
  | nil => cases ha
  | cons b t ih =>
    rw [List.count_cons]
    rcases List.mem_cons.mp ha with rfl | hat
    · have h0 : t.count a = 0 :=
        List.count_eq_zero.mpr (by simpa using (List.nodup_cons.mp hnd).1)
      simp [h0]
    · have hne : a ≠ b := by
        rintro rfl
        exact (List.nodup_cons.mp hnd).1 hat
      rw [ih (List.nodup_cons.mp hnd).2 hat]
      have hne2 : ¬ b = a := fun h => hne (Eq.symm h)
      simp [hne2]

theorem c6_resolver_queries_each_path_once
    {env : List Char → Bool × List Char}
    {all : List (WFile × List ActionReference)}
    {m : List (List Char × List Char)} {log : List (List Char)}
    (h : get_hash_mapping env all = Except.ok (m, log)) :
    m.map Prod.fst = log ∧ log.Nodup ∧
    (∀ p, p ∈ log ↔ p ∈ allPaths all) ∧
    (∀ p ∈ allPaths all, log.count p = 1) ∧
    (∀ pr ∈ m, pr.2 = resolvedHash env pr.1) := by
  obtain ⟨h1, h2, h3, h4⟩ := get_hash_mapping_ok h
  refine ⟨h1, h2, h4, fun p hp => ?_, fun pr hpr => (h3 pr hpr).1⟩
  exact count_eq_one_of_mem_nodup h2 ((h4 p).mpr hp)

/-- Claim C8: if a history query fails — the child process exits non-zero
or returns an empty hash — the whole run aborts with an error: no run
result (and in particular no partial hash mapping) is produced, and the
failing query itself is an `Except.error`, not a recoverable value. -/
theorem c8_query_failure_is_fatal (dr : Bool)
    (env : List Char → Bool × List Char) (files : List WFile)
    (hfail : ∃ p ∈ allPaths (collect_all_references files),
      ¬ queryOk env p) :
    (∃ e, mainRun dr env files = Except.error e) ∧
    (∀ res, mainRun dr env files = Except.ok res → False) ∧
    (∀ p, ¬ queryOk env p →
      ∃ e, get_latest_commit_for_path env p = Except.error e) := by
  obtain ⟨e, he⟩ := get_hash_mapping_error_of_fail hfail
  refine ⟨⟨e, mainRun_error_of_ghm he⟩, fun res hres => ?_,
    fun p hp => get_latest_of_fail hp⟩
  rw [mainRun_error_of_ghm he] at hres
  cases hres

/-- Claim C4: a dry run performs no filesystem writes — the files on disk
after the run are exactly the input files and the write log is empty —
while the computed counts and the queries performed agree with those of the
corresponding normal run. -/
theorem c4_dry_run_writes_nothing {env : List Char → Bool × List Char}
    {files : List WFile} {res : RunResult}
    (h : mainRun true env files = Except.ok res) :
    res.files = files ∧ res.written = [] ∧
    (∀ res2, mainRun false env files = Except.ok res2 →
      res2.total_updates = res.total_updates ∧
      res2.files_modified = res.files_modified ∧
      res2.queries = res.queries) := by
  obtain ⟨m, log, hg, rfl⟩ := mainRun_ok_elim h
  refine ⟨by simp [applyUpdates], by simp [applyUpdates], ?_⟩
  intro res2 h2
  obtain ⟨m2, log2, hg2, rfl⟩ := mainRun_ok_elim h2
  have : (m, log) = (m2, log2) := by
    have := hg.symm.trans hg2
    simpa using this
  obtain ⟨rfl, rfl⟩ := Prod.mk.injEq _ _ _ _ ▸ this
  exact ⟨by simp [applyUpdates], by simp [applyUpdates], by simp [applyUpdates]⟩

theorem collect_mem_iff {files : List WFile} {f : WFile}
    {rs : List ActionReference} :
    (f, rs) ∈ collect_all_references files ↔
      f ∈ files ∧ isYml f.path = true ∧
      rs = find_action_references f.content ∧ rs ≠ [] := by
  simp only [collect_all_references, List.mem_filterMap]
  constructor
  · rintro ⟨a, ha, hopt⟩
    split at hopt
    · cases hopt
    · rename_i hne
      simp only [Option.some.injEq, Prod.mk.injEq] at hopt
      obtain ⟨rfl, rfl⟩ := hopt
      have hy : isYml a.path = true := by
        by_contra hy
        rw [relevantRefs, if_neg (by simpa using hy)] at hne
        exact hne rfl
      refine ⟨ha, hy, ?_, hne⟩
      rw [relevantRefs, if_pos hy]
  · rintro ⟨hmem, hy, rfl, hne⟩
    refine ⟨f, hmem, ?_⟩
    have hrel : relevantRefs f = find_action_references f.content := by
      rw [relevantRefs, if_pos hy]
    rw [hrel, if_neg hne]

theorem collect_nil_relevant {files : List WFile}
    (h : collect_all_references files = []) :
    ∀ f ∈ files, relevantRefs f = [] := by
  intro f hf
  by_contra hne
  have : (f, relevantRefs f) ∈ collect_all_references files := by
    simp only [collect_all_references, List.mem_filterMap]
    exact ⟨f, hf, by rw [if_neg hne]⟩
  rw [h] at this
  cases this

theorem rewriteFile_no_refs {m : List (List Char × List Char)} {f : WFile}
    (h : relevantRefs f = []) : rewriteFile m f = (f, 0) := by
  simp only [rewriteFile, h, processRefs, List.foldl_nil]

theorem yaml_not_yml {p : List Char}
    (h : (".yaml").data.isSuffixOf p = true) : isYml p = false := by
  rw [List.isSuffixOf_iff_suffix] at h
  by_contra hy
  rw [isYml] at hy
  simp only [Bool.not_eq_false] at hy
  rw [List.isSuffixOf_iff_suffix] at hy
  have h4 : (".yml").data.length ≤ (".yaml").data.length := by decide
  have := List.suffix_of_suffix_length_le hy h h4
  revert this
  decide

/-- Claim C9: the scanner enumerates exactly the files whose name ends in
the extension `.yml` and that contain at least one reference (a name ending
in `.yaml` never qualifies, and files with zero matches are omitted); and
when no `.yml` file contains a reference, a run performs zero history
queries, zero updates, and leaves the directory unchanged. -/
theorem c9_only_yml_files_scanned (dr : Bool)
    (env : List Char → Bool × List Char) (files : List WFile) :
    (∀ (f : WFile) (rs : List ActionReference),
      (f, rs) ∈ collect_all_references files ↔
        f ∈ files ∧ isYml f.path = true ∧
        rs = find_action_references f.content ∧ rs ≠ []) ∧
    (∀ p : List Char, (".yaml").data.isSuffixOf p = true →
      isYml p = false) ∧
    (collect_all_references files = [] →
      ∀ res, mainRun dr env files = Except.ok res →
        res.queries = [] ∧ res.total_updates = 0 ∧
        res.files_modified = 0 ∧ res.files = files ∧ res.written = []) := by
  refine ⟨fun f rs => collect_mem_iff, fun p => yaml_not_yml, ?_⟩
  intro hnil res hres
  obtain ⟨m, log, hg, rfl⟩ := mainRun_ok_elim hres
  rw [hnil] at hg
  have hg0 : (Except.ok ([], []) :
      Except GitFailure (List (List Char × List Char) × List (List Char))) =
      Except.ok (m, log) := hg
  simp only [Except.ok.injEq, Prod.mk.injEq] at hg0
  obtain ⟨rfl, rfl⟩ := hg0
  have hupd : files.map (rewriteFile []) = files.map (fun f => (f, 0)) := by
    apply List.map_congr_left
    intro f hf
    exact rewriteFile_no_refs (collect_nil_relevant hnil f hf)
  constructor
  · simp [applyUpdates]
  constructor
  · simp only [applyUpdates, hupd]
    rw [List.map_map]
    apply List.sum_eq_zero
    intro x hx
    obtain ⟨f, hf, rfl⟩ := List.mem_map.mp hx
    rfl
  constructor
  · rw [applyUpdates_files_modified]
    rw [List.length_eq_zero]
    rw [List.filter_eq_nil_iff]
    intro f hf
    rw [rewriteFile_no_refs (collect_nil_relevant hnil f hf)]
    simp
  constructor
  · cases dr
    · simp only [applyUpdates, hupd]
      rw [List.map_map]
      have : ((fun u => u.1) ∘ fun f => ((f : WFile), (0 : Nat))) = id := by
        funext f
        rfl
      simp [this]
    · simp [applyUpdates]
  · cases dr
    · rw [applyUpdates_written]
      rw [List.map_eq_nil_iff]
      rw [List.filter_eq_nil_iff]
      intro f hf
      rw [rewriteFile_no_refs (collect_nil_relevant hnil f hf)]
      simp
    · simp [applyUpdates]

theorem find_action_references_shape {content : List Char}
    {r : ActionReference} (h : r ∈ find_action_references content) :
    r.full_match = actionsLit ++ r.action_path ++ '@' :: r.current_hash ∧
    PathGrammar r.action_path ∧ HashGrammar r.current_hash := by
  rw [find_action_references, List.mem_dedup] at h
  obtain ⟨pr, hpr, rfl⟩ := List.mem_map.mp h
  obtain ⟨rest, hm⟩ := matchesOf_sound hpr
  obtain ⟨h1, h2, h3, _⟩ := matchAt_shape hm
  exact ⟨h1, h2, h3⟩

/-- Claim C10: every reference the scanner produces satisfies
`full_match = "XRPLF/actions/" ++ action_path ++ "@" ++ current_hash`, so
the rewriter's replacement text shares with the replaced text everything up
to and including the `@`, and the two differ only in the hash portion after
it (the original hash being exactly 40 characters). -/
theorem c10_replacement_differs_only_in_hash (content : List Char) :
    ∀ r ∈ find_action_references content,
      ∀ m : List (List Char × List Char),
        ∃ pre, pre = actionsLit ++ r.action_path ++ ['@'] ∧
          r.full_match = pre ++ r.current_hash ∧
          new_ref m r.action_path = pre ++ lookupD m r.action_path ∧
          r.current_hash.length = 40 := by
  intro r hr m
  obtain ⟨h1, _, h3⟩ := find_action_references_shape hr
  refine ⟨actionsLit ++ r.action_path ++ ['@'], rfl, ?_, ?_, h3.1⟩
  · rw [h1]
    simp
  · rw [new_ref]
    simp

/-- Claim C1: one hash mapping is built per run, keyed without duplicates,
and the rewriter's replacement text for a reference is determined by its
`action_path` alone — any two references sharing an `action_path` are
rewritten to the identical resolved hash, the single hash the mapping
stores for that path. -/
theorem c1_same_path_same_resolved_hash
    {env : List Char → Bool × List Char} {files : List WFile}
    {m : List (List Char × List Char)} {log : List (List Char)}
    (h : get_hash_mapping env (collect_all_references files) =
      Except.ok (m, log)) :
    (m.map Prod.fst).Nodup ∧
    (∀ p ∈ allPaths (collect_all_references files),
      lookupD m p = resolvedHash env p) ∧
    (∀ (acc : List Char × Nat) (r : ActionReference),
      r.current_hash ≠ lookupD m r.action_path →
      updateStep m acc r =
        (replaceAll r.full_match (new_ref m r.action_path) acc.1,
          acc.2 + 1)) ∧
    (∀ r1 r2 : ActionReference, r1.action_path = r2.action_path →
      new_ref m r1.action_path = new_ref m r2.action_path) := by
  obtain ⟨h1, h2, _, _⟩ := get_hash_mapping_ok h
  refine ⟨h1 ▸ h2, fun p hp => get_hash_mapping_lookupD h hp,
    fun acc r hne => ?_, fun r1 r2 he => by rw [he]⟩
  rw [updateStep, if_neg hne]

/-- Claim C7: a reference whose resolved hash equals its current hash is
skipped — no substitution, no update counted — and a file counts as
modified, and is written back in a normal run, exactly when its final
content differs from its original content. -/
theorem c7_skip_up_to_date_and_modified_counting
    {env : List Char → Bool × List Char} {files : List WFile}
    {res : RunResult} (h : mainRun false env files = Except.ok res) :
    ∃ m log,
      get_hash_mapping env (collect_all_references files) =
        Except.ok (m, log) ∧
      (∀ (acc : List Char × Nat) (r : ActionReference),
        r.current_hash = lookupD m r.action_path →
        updateStep m acc r = acc) ∧
      res.files_modified =
        (files.filter
          (fun f => decide ((rewriteFile m f).1.content ≠ f.content))).length ∧
      res.written =
        (files.filter
          (fun f => decide ((rewriteFile m f).1.content ≠ f.content))).map
          (fun f => f.path) ∧
      res.files = files.map (fun f => (rewriteFile m f).1) := by
  obtain ⟨m, log, hg, rfl⟩ := mainRun_ok_elim h
  refine ⟨m, log, hg, fun acc r he => ?_,
    applyUpdates_files_modified false m log files,
    applyUpdates_written m log files, ?_⟩
  · rw [updateStep, if_pos he]
  · simp only [applyUpdates, if_neg (Bool.false_ne_true)]
    rw [List.map_map]
    rfl

theorem c6_witness :
    get_hash_mapping sampleEnv (collect_all_references [sampleFile]) =
      Except.ok ([(samplePath, hashB)], [samplePath]) ∧
    ([(samplePath, hashB)].map Prod.fst = [samplePath] ∧
      ([samplePath] : List (List Char)).Nodup ∧
      (∀ p, p ∈ [samplePath] ↔
        p ∈ allPaths (collect_all_references [sampleFile])) ∧
      (∀ p ∈ allPaths (collect_all_references [sampleFile]),
        ([samplePath] : List (List Char)).count p = 1) ∧
      (∀ pr ∈ [(samplePath, hashB)], pr.2 = resolvedHash sampleEnv pr.1)) :=
  ⟨by rfl, c6_resolver_queries_each_path_once (by rfl)⟩

theorem c8_witness :
    (∃ p ∈ allPaths (collect_all_references [sampleFile]),
      ¬ queryOk sampleEnvBad p) ∧
    ((∃ e, mainRun false sampleEnvBad [sampleFile] = Except.error e) ∧
     (∀ res, mainRun false sampleEnvBad [sampleFile] = Except.ok res →
       False) ∧
     (∀ p, ¬ queryOk sampleEnvBad p →
       ∃ e, get_latest_commit_for_path sampleEnvBad p = Except.error e)) :=
  ⟨by decide,
   c8_query_failure_is_fatal false sampleEnvBad [sampleFile] (by decide)⟩

theorem c4_witness :
    mainRun true sampleEnv [sampleFile] = Except.ok sampleResDry ∧
    (sampleResDry.files = [sampleFile] ∧ sampleResDry.written = [] ∧
     (∀ res2, mainRun false sampleEnv [sampleFile] = Except.ok res2 →
       res2.total_updates = sampleResDry.total_updates ∧
       res2.files_modified = sampleResDry.files_modified ∧
       res2.queries = sampleResDry.queries)) :=
  ⟨by rfl, c4_dry_run_writes_nothing (by rfl)⟩

theorem c1_witness :
    get_hash_mapping sampleEnv (collect_all_references [sampleFile]) =
      Except.ok ([(samplePath, hashB)], [samplePath]) ∧
    (([(samplePath, hashB)].map Prod.fst).Nodup ∧
     (∀ p ∈ allPaths (collect_all_references [sampleFile]),
       lookupD [(samplePath, hashB)] p = resolvedHash sampleEnv p) ∧
     (∀ (acc : List Char × Nat) (r : ActionReference),
       r.current_hash ≠ lookupD [(samplePath, hashB)] r.action_path →
       updateStep [(samplePath, hashB)] acc r =
         (replaceAll r.full_match
           (new_ref [(samplePath, hashB)] r.action_path) acc.1,
          acc.2 + 1)) ∧
     (∀ r1 r2 : ActionReference, r1.action_path = r2.action_path →
       new_ref [(samplePath, hashB)] r1.action_path =
         new_ref [(samplePath, hashB)] r2.action_path)) :=
  ⟨by rfl, c1_same_path_same_resolved_hash (by rfl)⟩

theorem c7_witness :
    mainRun false sampleEnv [sampleFile] = Except.ok sampleResNorm ∧
    ∃ m log,
      get_hash_mapping sampleEnv (collect_all_references [sampleFile]) =
        Except.ok (m, log) ∧
      (∀ (acc : List Char × Nat) (r : ActionReference),
        r.current_hash = lookupD m r.action_path →
        updateStep m acc r = acc) ∧
      sampleResNorm.files_modified =
        ([sampleFile].filter
          (fun f =>
            decide ((rewriteFile m f).1.content ≠ f.content))).length ∧
      sampleResNorm.written =
        ([sampleFile].filter
          (fun f =>
            decide ((rewriteFile m f).1.content ≠ f.content))).map
          (fun f => f.path) ∧
      sampleResNorm.files = [sampleFile].map (fun f => (rewriteFile m f).1) :=
  ⟨by rfl, c7_skip_up_to_date_and_modified_counting (by rfl)⟩

theorem c10_witness :
    sampleRef ∈ find_action_references sampleRefText ∧
    (∃ pre, pre = actionsLit ++ sampleRef.action_path ++ ['@'] ∧
      sampleRef.full_match = pre ++ sampleRef.current_hash ∧
      new_ref [] sampleRef.action_path =
        pre ++ lookupD [] sampleRef.action_path ∧
      sampleRef.current_hash.length = 40) :=
  ⟨by decide,
   c10_replacement_differs_only_in_hash sampleRefText sampleRef (by decide) []⟩

theorem c9_witness :
    collect_all_references [sampleTxtFile] = [] ∧
    mainRun false sampleEnv [sampleTxtFile] =
      Except.ok (applyUpdates false [] [] [sampleTxtFile]) ∧
    ((applyUpdates false [] [] [sampleTxtFile]).queries = [] ∧
     (applyUpdates false [] [] [sampleTxtFile]).total_updates = 0 ∧
     (applyUpdates false [] [] [sampleTxtFile]).files_modified = 0 ∧
     (applyUpdates false [] [] [sampleTxtFile]).files = [sampleTxtFile] ∧
     (applyUpdates false [] [] [sampleTxtFile]).written = []) :=
  ⟨by rfl, by rfl,
   (c9_only_yml_files_scanned false sampleEnv [sampleTxtFile]).2.2
     (by rfl) (applyUpdates false [] [] [sampleTxtFile]) (by rfl)⟩

theorem drop_getElem? {α : Type} (l : List α) :
    ∀ (n i : Nat), (l.drop n)[i]? = l[n + i]? := by
  induction l with
  | nil => intro n i; simp
  | cons a t ih =>
    intro n i
    match n with
    | 0 => simp
    | n + 1 =>
      rw [List.drop_succ_cons, ih n i, Nat.succ_add, List.getElem?_cons_succ]

theorem occursAt_cons_succ {w : List Char} {c : Char} {cs : List Char}
    {j : Nat} : occursAt w (c :: cs) (j + 1) ↔ occursAt w cs j := by
  rw [occursAt, occursAt, List.drop_succ_cons]

theorem occursAt_drop {w s : List Char} {L j : Nat} :
    occursAt w (s.drop L) j ↔ occursAt w s (L + j) := by
  rw [occursAt, occursAt, List.drop_drop]

theorem occursAt_getElem? {w s : List Char} {j : Nat} (h : occursAt w s j) :
    ∀ off, off < w.length → s[j + off]? = w[off]? := by
  obtain ⟨t, ht⟩ := h
  intro off hoff
  rw [← drop_getElem? s j off, ← ht, List.getElem?_append_left hoff]

theorem occursAt_length_le {w s : List Char} {j : Nat} (hw : w ≠ [])
    (h : occursAt w s j) : j + w.length ≤ s.length := by
  have h1 : w.length ≤ (s.drop j).length := h.length_le
  rw [List.length_drop] at h1
  have h2 : j < s.length := by
    by_contra hle
    have hd : s.drop j = [] := List.drop_of_length_le (by omega)
    rw [occursAt, hd] at h
    exact hw (List.prefix_nil.mp h)
  omega

theorem raAux_skip (old new : List Char) :
    ∀ (s : List Char) (k : Nat), raAux old new k s = raAux old new 0 (s.drop k) := by
  intro s
  induction s with
  | nil => intro k; cases k <;> rfl
  | cons c cs ih =>
    intro k
    match k with
    | 0 => rfl
    | k + 1 =>
      show raAux old new k cs = _
      rw [ih k, List.drop_succ_cons]

theorem raAux_cons_neg {old new : List Char} {c : Char} {cs : List Char}
    (hp : ¬ old.isPrefixOf (c :: cs) = true) :
    raAux old new 0 (c :: cs) = c :: raAux old new 0 cs := by
  simp [raAux, hp]

theorem raAux_cons_pos {old new : List Char} {c : Char} {cs : List Char}
    (hold : old ≠ []) (hp : old.isPrefixOf (c :: cs) = true) :
    raAux old new 0 (c :: cs) =
      new ++ raAux old new 0 ((c :: cs).drop old.length) := by
  obtain ⟨L, hL⟩ : ∃ L, old.length = L + 1 := by
    cases old with
    | nil => exact absurd rfl hold
    | cons a t => exact ⟨t.length, rfl⟩
  simp only [raAux, hp, if_true]
  rw [raAux_skip, hL, List.drop_succ_cons]
  simp only [Nat.add_sub_cancel]

theorem replaceAll_eq_raAux {old new s : List Char} (hold : old ≠ []) :
    replaceAll old new s = raAux old new 0 s := by
  rw [replaceAll, if_neg hold]

theorem raAux_length {old new : List Char} (hold : old ≠ [])
    (hlen : old.length = new.length) :
    ∀ (n : Nat) (s : List Char), s.length ≤ n →
      (raAux old new 0 s).length = s.length := by
  intro n
  induction n with
  | zero =>
    intro s hs
    have h0 : s = [] := List.length_eq_zero.mp (by omega)
    subst h0
    rfl
  | succ n ih =>
    intro s hs
    match s with
    | [] => rfl
    | c :: cs =>
      have hLpos : 1 ≤ old.length := by
        cases old with
        | nil => exact absurd rfl hold
        | cons a t => simp
      by_cases hp : old.isPrefixOf (c :: cs) = true
      · rw [raAux_cons_pos hold hp]
        have hle : old.length ≤ (c :: cs).length :=
          (List.isPrefixOf_iff_prefix.mp hp).length_le
        rw [List.length_append,
          ih ((c :: cs).drop old.length) (by simp [List.length_drop] at hs ⊢; omega)]
        simp only [List.length_drop]
        omega
      · rw [raAux_cons_neg hp]
        simp only [List.length_cons]
        rw [ih cs (by simp at hs; omega)]

theorem raAux_diff {old new : List Char} (hold : old ≠ [])
    (hlen : old.length = new.length) :
    ∀ (n : Nat) (s : List Char), s.length ≤ n →
      ∀ i, (raAux old new 0 s)[i]? ≠ s[i]? →
        ∃ j, occursAt old s j ∧ j ≤ i ∧ i < j + old.length ∧
          (raAux old new 0 s)[i]? = new[i - j]? := by
  intro n
  induction n with
  | zero =>
    intro s hs i hne
    have h0 : s = [] := List.length_eq_zero.mp (by omega)
    subst h0
    exact absurd rfl hne
  | succ n ih =>
    intro s hs i hne
    match s with
    | [] => exact absurd rfl hne
    | c :: cs =>
      have hLpos : 1 ≤ old.length := by
        cases old with
        | nil => exact absurd rfl hold
        | cons a t => simp
      by_cases hp : old.isPrefixOf (c :: cs) = true
      · rw [raAux_cons_pos hold hp] at hne ⊢
        have hocc0 : occursAt old (c :: cs) 0 :=
          List.isPrefixOf_iff_prefix.mp hp
        by_cases hi : i < old.length
        · refine ⟨0, hocc0, Nat.zero_le i, by omega, ?_⟩
          rw [List.getElem?_append_left (by omega : i < new.length)]
          simp
        · push_neg at hi
          have hiR : new.length ≤ i := by omega
          rw [List.getElem?_append_right hiR] at hne ⊢
          have hsr : (c :: cs)[i]? = ((c :: cs).drop old.length)[i - new.length]? := by
            rw [drop_getElem?]
            congr 1
            omega
          rw [hsr] at hne
          have hlen2 : ((c :: cs).drop old.length).length ≤ n := by
            simp only [List.length_drop, List.length_cons]
            simp only [List.length_cons] at hs
            omega
          obtain ⟨j2, hocc2, hj2a, hj2b, hval⟩ :=
            ih ((c :: cs).drop old.length) hlen2 (i - new.length) hne
          refine ⟨old.length + j2, occursAt_drop.mp hocc2, by omega, by omega, ?_⟩
          rw [hval]
          congr 1
          omega
      · rw [raAux_cons_neg hp] at hne ⊢
        match i with
        | 0 => simp at hne
        | i + 1 =>
          rw [List.getElem?_cons_succ, List.getElem?_cons_succ] at hne
          rw [List.getElem?_cons_succ]
          obtain ⟨j2, hocc2, hj2a, hj2b, hval⟩ :=
            ih cs (by simp only [List.length_cons] at hs; omega) i hne
          refine ⟨j2 + 1, occursAt_cons_succ.mpr hocc2, by omega, by omega, ?_⟩
          rw [hval]
          congr 1
          omega

theorem raAux_hit {old new : List Char} (hold : old ≠ [])
    (hlen : old.length = new.length) :
    ∀ (n : Nat) (s : List Char), s.length ≤ n →
      (∀ j1 j2, occursAt old s j1 → occursAt old s j2 → j1 < j2 →
        j1 + old.length ≤ j2) →
      ∀ j, occursAt old s j → ∀ off, off < old.length →
        (raAux old new 0 s)[j + off]? = new[off]? := by
  intro n
  induction n with
  | zero =>
    intro s hs hdisj j hocc off hoff
    have h0 : s = [] := List.length_eq_zero.mp (by omega)
    subst h0
    have hocl := occursAt_length_le hold hocc
    rw [List.length_nil] at hocl
    omega
  | succ n ih =>
    intro s hs hdisj j hocc off hoff
    have hLpos : 1 ≤ old.length := by
      cases old with
      | nil => exact absurd rfl hold
      | cons a t => simp
    match s with
    | [] =>
      have hocl := occursAt_length_le hold hocc
      rw [List.length_nil] at hocl
      omega
    | c :: cs =>
      by_cases hp : old.isPrefixOf (c :: cs) = true
      · rw [raAux_cons_pos hold hp]
        have hocc0 : occursAt old (c :: cs) 0 :=
          List.isPrefixOf_iff_prefix.mp hp
        match j with
        | 0 =>
          rw [List.getElem?_append_left (by omega : 0 + off < new.length)]
          congr 1
          omega
        | j + 1 =>
          have hjL : old.length ≤ j + 1 := by
            have := hdisj 0 (j + 1) hocc0 hocc (by omega)
            omega
          rw [List.getElem?_append_right (by omega : new.length ≤ j + 1 + off)]
          have hocc2 : occursAt old ((c :: cs).drop old.length)
              (j + 1 - old.length) := by
            rw [occursAt_drop]
            rw [show old.length + (j + 1 - old.length) = j + 1 by omega]
            exact hocc
          have hdisj2 : ∀ j1 j2, occursAt old ((c :: cs).drop old.length) j1 →
              occursAt old ((c :: cs).drop old.length) j2 → j1 < j2 →
              j1 + old.length ≤ j2 := by
            intro j1 j2 h1 h2 hlt
            have := hdisj (old.length + j1) (old.length + j2)
              (occursAt_drop.mp h1) (occursAt_drop.mp h2) (by omega)
            omega
          have hlen2 : ((c :: cs).drop old.length).length ≤ n := by
            simp only [List.length_drop, List.length_cons]
            simp only [List.length_cons] at hs
            omega
          have := ih ((c :: cs).drop old.length) hlen2 hdisj2
            (j + 1 - old.length) hocc2 off hoff
          rw [show j + 1 + off - new.length = j + 1 - old.length + off by omega]
          exact this
      · rw [raAux_cons_neg hp]
        match j with
        | 0 => exact absurd (List.isPrefixOf_iff_prefix.mpr hocc) hp
        | j + 1 =>
          rw [show j + 1 + off = (j + off) + 1 by omega, List.getElem?_cons_succ]
          have hdisj2 : ∀ j1 j2, occursAt old cs j1 → occursAt old cs j2 →
              j1 < j2 → j1 + old.length ≤ j2 := by
            intro j1 j2 h1 h2 hlt
            have := hdisj (j1 + 1) (j2 + 1) (occursAt_cons_succ.mpr h1)
              (occursAt_cons_succ.mpr h2) (by omega)
            omega
          exact ih cs (by simp only [List.length_cons] at hs; omega) hdisj2 j
            (occursAt_cons_succ.mp hocc) off hoff

theorem actionsLit_length : actionsLit.length = 14 := rfl

theorem refShape_full_length {r : ActionReference} (h : RefShape r) :
    r.full_match.length = 55 + r.action_path.length := by
  rw [h.1]
  simp only [List.length_append, List.length_cons, actionsLit_length,
    h.2.2.1]
  omega

theorem refShape_length_ge {r : ActionReference} (h : RefShape r) :
    56 ≤ r.full_match.length := by
  have h1 : r.action_path.length ≠ 0 := by
    simpa using PathGrammar_ne_nil h.2.1
  rw [refShape_full_length h]
  omega

theorem refShape_full_decomp {r : ActionReference} (h : RefShape r) :
    r.full_match = (actionsLit ++ r.action_path) ++ '@' :: r.current_hash := by
  rw [h.1, List.append_assoc]

theorem at_iff_aux (pre hash : List Char) (hpre : ∀ c ∈ pre, c ≠ '@')
    (hhash : ∀ c ∈ hash, c ≠ '@') (off : Nat) :
    ((pre ++ '@' :: hash))[off]? = some '@' ↔ off = pre.length := by
  constructor
  · intro hat
    by_contra hne
    by_cases hlt : off < pre.length
    · rw [List.getElem?_append_left hlt] at hat
      exact hpre _ (List.getElem?_mem hat) rfl
    · push_neg at hlt
      rw [List.getElem?_append_right hlt] at hat
      rcases hc : off - pre.length with _ | k
      · exact hne (by omega)
      · rw [hc, List.getElem?_cons_succ] at hat
        exact hhash _ (List.getElem?_mem hat) rfl
  · rintro rfl
    rw [List.getElem?_append_right (Nat.le_refl _), Nat.sub_self]
    exact List.getElem?_cons_zero

theorem refShape_at_iff {r : ActionReference} (h : RefShape r) {off : Nat} :
    (r.full_match)[off]? = some '@' ↔ off = r.full_match.length - 41 := by
  have hK : (actionsLit ++ r.action_path).length =
      14 + r.action_path.length := by
    simp [List.length_append, actionsLit_length]
  have hflen := refShape_full_length h
  have h1 := at_iff_aux (actionsLit ++ r.action_path) r.current_hash
    (fun c hc => by
      rcases List.mem_append.mp hc with hc | hc
      · exact actionsLit_no_at _ hc
      · exact PathGrammar_no_at h.2.1 _ hc)
    (HashGrammar_no_at h.2.2) off
  rw [← refShape_full_decomp h] at h1
  rw [h1, hK]
  omega

theorem matches_facts {s : List Char} {a : Nat} {r : ActionReference}
    (h : (a, r) ∈ matchesOf s) :
    RefShape r ∧ 56 ≤ r.full_match.length ∧ occursAt r.full_match s a := by
  obtain ⟨rest, hm⟩ := matchesOf_sound h
  obtain ⟨h1, h2, h3, hs⟩ := matchAt_shape hm
  exact ⟨⟨h1, h2, h3⟩, matchAt_full_length_ge hm, ⟨rest, hs.symm⟩⟩

theorem find_refs_refShape {content : List Char} {r : ActionReference}
    (h : r ∈ find_action_references content) : RefShape r := by
  obtain ⟨h1, h2, h3⟩ := find_action_references_shape h
  exact ⟨h1, h2, h3⟩

theorem match_content {s : List Char} {a : Nat} {r : ActionReference}
    (h : (a, r) ∈ matchesOf s) :
    ∀ off, off < r.full_match.length → (s)[a + off]? = (r.full_match)[off]? :=
  occursAt_getElem? (matches_facts h).2.2

theorem match_at_marker {s : List Char} {a : Nat} {r : ActionReference}
    (h : (a, r) ∈ matchesOf s) :
    (s)[a + (r.full_match.length - 41)]? = some '@' := by
  obtain ⟨hsh, hge, _⟩ := matches_facts h
  rw [match_content h _ (by omega)]
  exact (refShape_at_iff hsh).mpr rfl

theorem match_hash_hex {s : List Char} {a : Nat} {r : ActionReference}
    (h : (a, r) ∈ matchesOf s) {i : Nat} (hi : inHashSpan a r i) :
    ∃ hc, (s)[i]? = some hc ∧ isHexChar hc = true := by
  obtain ⟨hsh, hge, _⟩ := matches_facts h
  have hflen := refShape_full_length hsh
  have hK : (actionsLit ++ r.action_path).length =
      14 + r.action_path.length := by
    simp [List.length_append, actionsLit_length]
  have hhl : r.current_hash.length = 40 := hsh.2.2.1
  obtain ⟨h1, h2⟩ := hi
  have hoff : i = a + (i - a) := by omega
  rw [hoff, match_content h _ (by omega), refShape_full_decomp hsh]
  rw [List.getElem?_append_right (by omega)]
  rcases hc : i - a - (actionsLit ++ r.action_path).length with _ | k
  · omega
  · rw [List.getElem?_cons_succ]
    have hk40 : k < r.current_hash.length := by omega
    have hch : (r.current_hash)[k]? = some (r.current_hash.get ⟨k, hk40⟩) := by
      rw [List.getElem?_eq_some_iff]
      exact ⟨hk40, by simp⟩
    exact ⟨_, hch, hsh.2.2.2 _ (List.getElem?_mem hch)⟩

theorem matches_separated {s : List Char} {x y : Nat × ActionReference}
    (hx : x ∈ matchesOf s) (hy : y ∈ matchesOf s) (hne : x ≠ y) :
    x.1 + x.2.full_match.length ≤ y.1 ∨
      y.1 + y.2.full_match.length ≤ x.1 := by
  have hp := scanSk_pairwise s 0 0
  have hsym : Symmetric (fun a b : Nat × ActionReference =>
      a.1 + a.2.full_match.length ≤ b.1 ∨
        b.1 + b.2.full_match.length ≤ a.1) := by
    intro a b hab
    exact hab.symm
  have hp2 : List.Pairwise (fun a b : Nat × ActionReference =>
      a.1 + a.2.full_match.length ≤ b.1 ∨
        b.1 + b.2.full_match.length ≤ a.1) (scanSk 0 0 s) :=
    hp.imp (fun hab => Or.inl hab)
  exact List.Pairwise.forall hsym hp2 hx hy hne

theorem span_unique {s : List Char} {x y : Nat × ActionReference}
    (hx : x ∈ matchesOf s) (hy : y ∈ matchesOf s) {i : Nat}
    (hix : inSpan x.1 x.2 i) (hiy : inSpan y.1 y.2 i) : x = y := by
  by_contra hne
  rcases matches_separated hx hy hne with h | h
  · obtain ⟨h1, h2⟩ := hix
    obtain ⟨h3, h4⟩ := hiy
    omega
  · obtain ⟨h1, h2⟩ := hix
    obtain ⟨h3, h4⟩ := hiy
    omega

theorem inHashSpan_inSpan {a : Nat} {r : ActionReference} {i : Nat}
    (hge : 56 ≤ r.full_match.length) (h : inHashSpan a r i) :
    inSpan a r i := by
  obtain ⟨h1, h2⟩ := h
  exact ⟨by omega, h2⟩

theorem marker_not_inHS {s : List Char} {a : Nat} {r : ActionReference}
    (h : (a, r) ∈ matchesOf s) :
    ¬ InHS s (a + (r.full_match.length - 41)) := by
  obtain ⟨hsh, hge, _⟩ := matches_facts h
  rintro ⟨⟨a2, r2⟩, hm2, hsp2⟩
  dsimp only at hsp2
  obtain ⟨hsh2, hge2, _⟩ := matches_facts hm2
  by_cases he : ((a2, r2) : Nat × ActionReference) = (a, r)
  · rw [Prod.mk.injEq] at he
    obtain ⟨rfl, rfl⟩ := he
    obtain ⟨h1, h2⟩ := hsp2
    omega
  · have hsp1 : inSpan a r (a + (r.full_match.length - 41)) :=
      ⟨by omega, by omega⟩
    exact he (span_unique hm2 h (inHashSpan_inSpan hge2 hsp2) hsp1)

theorem rewriteInv_refl (c0 : List Char) : RewriteInv c0 c0 := by
  refine ⟨rfl, fun i _ => rfl, fun i hi => ?_⟩
  obtain ⟨⟨a, r⟩, hm, hsp⟩ := hi
  exact match_hash_hex hm hsp

theorem word_head_X {r : ActionReference} (h : RefShape r) :
    (r.full_match)[0]? = some 'X' := by
  rw [h.1]
  rw [List.getElem?_append_left (show (0:Nat) <
    (actionsLit ++ r.action_path).length by
      simp [List.length_append, actionsLit_length])]
  rw [List.getElem?_append_left (show (0:Nat) < actionsLit.length by
    rw [actionsLit_length]; omega)]
  rfl

theorem match_at_only {s : List Char} {A : Nat} {rM : ActionReference}
    {i : Nat} (hm : (A, rM) ∈ matchesOf s) (hi : inSpan A rM i)
    (hat : (s)[i]? = some '@') :
    i = A + (rM.full_match.length - 41) := by
  obtain ⟨hsh, hge, _⟩ := matches_facts hm
  obtain ⟨h1, h2⟩ := hi
  have hc := match_content hm (i - A) (by omega)
  rw [show A + (i - A) = i by omega] at hc
  rw [hc] at hat
  have := (refShape_at_iff hsh).mp hat
  omega

theorem inv_no_at_on_hs {c0 c : List Char} (hinv : RewriteInv c0 c) {i : Nat}
    (hhs : InHS c0 i) {ch : Char} (hch : (c)[i]? = some ch)
    (hnhex : isHexChar ch = false) : False := by
  obtain ⟨ch2, hch2, hhex⟩ := hinv.2.2 i hhs
  rw [hch] at hch2
  injection hch2 with he
  rw [← he] at hhex
  rw [hhex] at hnhex
  cases hnhex

/-- Any occurrence in the rewritten content `c` of a full-reference-shaped
word is aligned with a match of the original scan: it ends exactly where
that match ends, and starts no earlier than the match starts.  In
particular its final 40 characters occupy exactly that match's hash
span. -/
theorem occurrence_aligned {c0 c : List Char} (hinv : RewriteInv c0 c)
    {w : ActionReference} (hw : RefShape w) {j : Nat}
    (hocc : occursAt w.full_match c j) :
    ∃ a rM, (a, rM) ∈ matchesOf c0 ∧ a ≤ j ∧
      j + w.full_match.length = a + rM.full_match.length := by
  have hwge := refShape_length_ge hw
  have hwne : w.full_match ≠ [] := by
    intro he
    rw [he, List.length_nil] at hwge
    omega
  have hclen : j + w.full_match.length ≤ c.length :=
    occursAt_length_le hwne hocc
  have hc0len : c.length = c0.length := hinv.1
  have hwchar := occursAt_getElem? hocc
  have hX : (c)[j]? = some 'X' := by
    have := hwchar 0 (by omega)
    rw [Nat.add_zero] at this
    rw [this]
    exact word_head_X hw
  -- Step A1: positions of the head (up to and including the @) are not in
  -- any original hash span.
  have hA1 : ∀ off, off < w.full_match.length - 40 → ¬ InHS c0 (j + off) := by
    intro off hoff hin
    obtain ⟨⟨a2, r2⟩, hm2, hsp2⟩ := hin
    dsimp only at hsp2
    obtain ⟨hsh2, hge2, _⟩ := matches_facts hm2
    have hmark := match_at_marker hm2
    have hmarkc : (c)[a2 + (r2.full_match.length - 41)]? = some '@' := by
      rw [hinv.2.1 _ (marker_not_inHS hm2)]
      exact hmark
    obtain ⟨hs1, hs2⟩ := hsp2
    by_cases hmj : a2 + (r2.full_match.length - 41) < j
    · -- the marker is left of the occurrence, so j is inside the hash span
      have hjhs : InHS c0 j := by
        refine ⟨(a2, r2), hm2, ?_⟩
        show a2 + r2.full_match.length - 40 ≤ j ∧
          j < a2 + r2.full_match.length
        omega
      exact inv_no_at_on_hs hinv hjhs hX (by decide)
    · -- the marker is inside the head of the occurrence, impossible
      push_neg at hmj
      have hoffm : a2 + (r2.full_match.length - 41) - j <
          w.full_match.length - 41 := by omega
      have := hwchar (a2 + (r2.full_match.length - 41) - j) (by omega)
      rw [show j + (a2 + (r2.full_match.length - 41) - j) =
        a2 + (r2.full_match.length - 41) by omega] at this
      rw [this] at hmarkc
      have := (refShape_at_iff hw).mp hmarkc
      omega
  -- Step A2: the head of the occurrence is unchanged from c0.
  have hA2 : ∀ off, off < w.full_match.length - 40 →
      (c0)[j + off]? = (w.full_match)[off]? := by
    intro off hoff
    rw [← hinv.2.1 _ (hA1 off hoff)]
    exact hwchar off (by omega)
  -- The @ of the occurrence in c0.
  have hat0 : (c0)[j + (w.full_match.length - 41)]? = some '@' := by
    rw [hA2 _ (by omega)]
    exact (refShape_at_iff hw).mpr rfl
  -- Step A3: the tail positions hold hex characters in c0.
  have hA3 : ∀ off, w.full_match.length - 40 ≤ off →
      off < w.full_match.length →
      ∃ hc2, (c0)[j + off]? = some hc2 ∧ isHexChar hc2 = true := by
    intro off hoff1 hoff2
    by_cases hin : InHS c0 (j + off)
    · obtain ⟨⟨a2, r2⟩, hm2, hsp2⟩ := hin
      exact match_hash_hex hm2 hsp2
    · rw [← hinv.2.1 _ hin]
      have hwv := hwchar off hoff2
      rw [hwv]
      have hfull := refShape_full_decomp hw
      have hK : (actionsLit ++ w.action_path).length =
          14 + w.action_path.length := by
        simp [List.length_append, actionsLit_length]
      have hflen := refShape_full_length hw
      have hhl : w.current_hash.length = 40 := hw.2.2.1
      rw [hfull, List.getElem?_append_right (by omega)]
      rcases hc : off - (actionsLit ++ w.action_path).length with _ | k
      · omega
      · rw [List.getElem?_cons_succ]
        have hk40 : k < w.current_hash.length := by omega
        have hch : (w.current_hash)[k]? =
            some (w.current_hash.get ⟨k, hk40⟩) := by
          rw [List.getElem?_eq_some_iff]
          exact ⟨hk40, by simp⟩
        exact ⟨_, hch, hw.2.2.2 _ (List.getElem?_mem hch)⟩
  -- Step B: c0 has a match attempt succeeding at position j.
  have hh0len : ((c0.drop (j + (w.full_match.length - 40))).take 40).length
      = 40 := by
    rw [List.length_take, List.length_drop]
    omega
  have hh0get : ∀ k, k < 40 →
      ((c0.drop (j + (w.full_match.length - 40))).take 40)[k]? =
        (c0)[j + (w.full_match.length - 40 + k)]? := by
    intro k hk
    rw [List.getElem?_take_of_lt hk, drop_getElem?]
    congr 1
    omega
  have hh0hex : ∀ ch ∈ (c0.drop (j + (w.full_match.length - 40))).take 40,
      isHexChar ch = true := by
    intro ch hch
    obtain ⟨k, hkv⟩ := List.mem_iff_getElem?.mp hch
    have hk : k < 40 := by
      by_contra hk
      rw [List.getElem?_eq_none (by omega)] at hkv
      cases hkv
    rw [hh0get k hk] at hkv
    obtain ⟨hc2, hv, hx2⟩ := hA3 (w.full_match.length - 40 + k)
      (by omega) (by omega)
    rw [hkv] at hv
    cases hv
    exact hx2
  have hwr0 : RefShape ⟨actionsLit ++ w.action_path ++ '@' ::
      ((c0.drop (j + (w.full_match.length - 40))).take 40), w.action_path,
      (c0.drop (j + (w.full_match.length - 40))).take 40⟩ :=
    ⟨rfl, hw.2.1, ⟨hh0len, hh0hex⟩⟩
  have hw0len : (actionsLit ++ w.action_path ++ '@' ::
      ((c0.drop (j + (w.full_match.length - 40))).take 40)).length =
      w.full_match.length := by
    have h1 := refShape_full_length hwr0
    have h2 := refShape_full_length hw
    simp only at h1
    omega
  have hw0head : ∀ n, n < w.full_match.length - 40 →
      (actionsLit ++ w.action_path ++ '@' ::
        ((c0.drop (j + (w.full_match.length - 40))).take 40))[n]? =
        (w.full_match)[n]? := by
    intro n hn
    have hK : (actionsLit ++ w.action_path).length =
        14 + w.action_path.length := by
      simp [List.length_append, actionsLit_length]
    have hflen := refShape_full_length hw
    conv_rhs => rw [refShape_full_decomp hw]
    by_cases hnK : n < (actionsLit ++ w.action_path).length
    · rw [List.getElem?_append_left hnK, List.getElem?_append_left hnK]
    · push_neg at hnK
      rw [List.getElem?_append_right hnK, List.getElem?_append_right hnK]
      rcases hc : n - (actionsLit ++ w.action_path).length with _ | k
      · rw [List.getElem?_cons_zero, List.getElem?_cons_zero]
      · omega
  have hkey : actionsLit ++ w.action_path ++ '@' ::
      ((c0.drop (j + (w.full_match.length - 40))).take 40) =
      (c0.drop j).take w.full_match.length := by
    apply List.ext_getElem?
    intro n
    by_cases hn : n < w.full_match.length
    · rw [List.getElem?_take_of_lt hn, drop_getElem?]
      by_cases hn2 : n < w.full_match.length - 40
      · rw [hw0head n hn2]
        exact (hA2 n hn2).symm
      · push_neg at hn2
        have hK : (actionsLit ++ w.action_path).length =
            14 + w.action_path.length := by
          simp [List.length_append, actionsLit_length]
        have hflen := refShape_full_length hw
        rw [List.getElem?_append_right (by omega)]
        rcases hc : n - (actionsLit ++ w.action_path).length with _ | k
        · omega
        · rw [List.getElem?_cons_succ, hh0get k (by omega)]
          congr 1
          omega
    · push_neg at hn
      rw [List.getElem?_eq_none (by omega), List.getElem?_eq_none]
      rw [List.length_take, List.length_drop]
      omega
  have hB : matchAt (c0.drop j) = some (⟨actionsLit ++ w.action_path ++
      '@' :: ((c0.drop (j + (w.full_match.length - 40))).take 40),
      w.action_path, (c0.drop (j + (w.full_match.length - 40))).take 40⟩,
      (c0.drop j).drop w.full_match.length) := by
    apply matchAt_eq_some.mpr
    refine ⟨w.action_path, (c0.drop (j + (w.full_match.length - 40))).take 40,
      hw.2.1, ⟨hh0len, hh0hex⟩, rfl, ?_⟩
    have hsplit := List.take_append_drop w.full_match.length (c0.drop j)
    conv_lhs => rw [← hsplit, ← hkey]
    rw [List.append_assoc, List.cons_append]
  -- Step C: some original match covers position j.
  obtain ⟨pr, hmem, hcov1, hcov2⟩ := @scanSk_cover c0 0 0 j (Nat.zero_le j)
    _ _ hB
  obtain ⟨A, rM⟩ := pr
  replace hcov1 : A ≤ j := by simpa using hcov1
  replace hcov2 : j < A + rM.full_match.length := by simpa using hcov2
  obtain ⟨hshM, hgeM, _⟩ := matches_facts hmem
  -- Step D: the @ of the occurrence is the @ of the covering match.
  have hatM := match_at_marker hmem
  have hd1 : j ≤ A + (rM.full_match.length - 41) := by
    by_contra hd
    push_neg at hd
    have hjhs : InHS c0 j := by
      refine ⟨(A, rM), hmem, ?_⟩
      show A + rM.full_match.length - 40 ≤ j ∧ j < A + rM.full_match.length
      omega
    exact inv_no_at_on_hs hinv hjhs hX (by decide)
  have hd2 : A + (rM.full_match.length - 41) ≤
      j + (w.full_match.length - 41) := by
    by_contra hd
    push_neg at hd
    have hsp : inSpan A rM (j + (w.full_match.length - 41)) := by
      show A ≤ j + (w.full_match.length - 41) ∧
        j + (w.full_match.length - 41) < A + rM.full_match.length
      omega
    have := match_at_only hmem hsp hat0
    omega
  have hd3 : A + (rM.full_match.length - 41) =
      j + (w.full_match.length - 41) := by
    by_contra hd
    have hlt : A + (rM.full_match.length - 41) - j <
        w.full_match.length - 41 := by omega
    have hval := hA2 (A + (rM.full_match.length - 41) - j) (by omega)
    rw [show j + (A + (rM.full_match.length - 41) - j) =
      A + (rM.full_match.length - 41) by omega] at hval
    have hmark0 : (c0)[A + (rM.full_match.length - 41)]? = some '@' := hatM
    rw [hval] at hmark0
    have := (refShape_at_iff hw).mp hmark0
    omega
  exact ⟨A, rM, hmem, hcov1, by omega⟩

theorem fullref_head_eq {p h1 h2 : List Char} (e1 : h1.length = 40) :
    ∀ off, off < ((actionsLit ++ p) ++ '@' :: h1).length - 40 →
      (((actionsLit ++ p) ++ '@' :: h1))[off]? =
        (((actionsLit ++ p) ++ '@' :: h2))[off]? := by
  intro off hoff
  have hK : (actionsLit ++ p).length = 14 + p.length := by
    simp [List.length_append, actionsLit_length]
  rw [List.length_append, List.length_cons, e1] at hoff
  by_cases hnK : off < (actionsLit ++ p).length
  · rw [List.getElem?_append_left hnK, List.getElem?_append_left hnK]
  · push_neg at hnK
    rw [List.getElem?_append_right hnK, List.getElem?_append_right hnK]
    rcases hc : off - (actionsLit ++ p).length with _ | k
    · rw [List.getElem?_cons_zero, List.getElem?_cons_zero]
    · omega

theorem fullref_tail_hex {p h : List Char} (hg : HashGrammar h) :
    ∀ off, ((actionsLit ++ p) ++ '@' :: h).length - 40 ≤ off →
      off < ((actionsLit ++ p) ++ '@' :: h).length →
      ∃ ch, (((actionsLit ++ p) ++ '@' :: h))[off]? = some ch ∧
        isHexChar ch = true := by
  intro off h1 h2
  have hK : (actionsLit ++ p).length = 14 + p.length := by
    simp [List.length_append, actionsLit_length]
  have h40 : h.length = 40 := hg.1
  rw [List.length_append, List.length_cons, hg.1] at h1 h2
  rw [List.getElem?_append_right (by omega)]
  rcases hc : off - (actionsLit ++ p).length with _ | k
  · omega
  · rw [List.getElem?_cons_succ]
    have hk40 : k < h.length := by omega
    have hch : (h)[k]? = some (h.get ⟨k, hk40⟩) := by
      rw [List.getElem?_eq_some_iff]
      exact ⟨hk40, by simp⟩
    exact ⟨_, hch, hg.2 _ (List.getElem?_mem hch)⟩

theorem inv_step {c0 c : List Char} (hinv : RewriteInv c0 c)
    {r : ActionReference} (hsh : RefShape r) {newh : List Char}
    (hnew : HashGrammar newh) :
    RewriteInv c0 (replaceAll r.full_match
      (actionsLit ++ r.action_path ++ '@' :: newh) c) := by
  have hge := refShape_length_ge hsh
  have hold : r.full_match ≠ [] := by
    intro he
    rw [he, List.length_nil] at hge
    omega
  have hd := refShape_full_decomp hsh
  have e1 := refShape_full_length hsh
  have eK : (actionsLit ++ r.action_path).length =
      14 + r.action_path.length := by
    simp [List.length_append, actionsLit_length]
  have e2 : (actionsLit ++ r.action_path ++ '@' :: newh).length =
      55 + r.action_path.length := by
    simp only [List.length_append, List.length_cons, actionsLit_length,
      hnew.1]
    omega
  have hlen : r.full_match.length =
      (actionsLit ++ r.action_path ++ '@' :: newh).length := by omega
  rw [replaceAll_eq_raAux hold]
  have hdiff := fun i =>
    raAux_diff hold hlen c.length c (Nat.le_refl _) i
  -- positions that change lie in original hash spans and hold hex values
  have hchg : ∀ i, (raAux r.full_match
      (actionsLit ++ r.action_path ++ '@' :: newh) 0 c)[i]? ≠ (c)[i]? →
      InHS c0 i ∧
      ∃ ch, (raAux r.full_match
        (actionsLit ++ r.action_path ++ '@' :: newh) 0 c)[i]? = some ch ∧
        isHexChar ch = true := by
    intro i hne
    obtain ⟨j, hocc, hj1, hj2, hval⟩ := hdiff i hne
    have hoffL : i - j ≥ r.full_match.length - 40 := by
      by_contra hlt
      push_neg at hlt
      apply hne
      rw [hval]
      have hcc := occursAt_getElem? hocc (i - j) (by omega)
      rw [show j + (i - j) = i by omega] at hcc
      rw [hcc, hd]
      exact fullref_head_eq hnew.1 (i - j) (by omega)
    obtain ⟨a, rM, hmem, haj, hend⟩ := occurrence_aligned hinv hsh hocc
    constructor
    · refine ⟨(a, rM), hmem, ?_⟩
      show a + rM.full_match.length - 40 ≤ i ∧ i < a + rM.full_match.length
      omega
    · rw [hval]
      exact fullref_tail_hex hnew (i - j) (by omega) (by omega)
  refine ⟨?_, ?_, ?_⟩
  · rw [raAux_length hold hlen c.length c (Nat.le_refl _)]
    exact hinv.1
  · intro i hnin
    by_cases hne : (raAux r.full_match
        (actionsLit ++ r.action_path ++ '@' :: newh) 0 c)[i]? = (c)[i]?
    · rw [hne]
      exact hinv.2.1 i hnin
    · exact absurd (hchg i hne).1 hnin
  · intro i hin
    by_cases hne : (raAux r.full_match
        (actionsLit ++ r.action_path ++ '@' :: newh) 0 c)[i]? = (c)[i]?
    · rw [hne]
      exact hinv.2.2 i hin
    · exact (hchg i hne).2

theorem processRefs_inv {m : List (List Char × List Char)} {c0 : List Char}
    {refs : List ActionReference} (hrefs : ∀ r ∈ refs, RefShape r)
    (hmhex : ∀ r ∈ refs, HashGrammar (lookupD m r.action_path)) :
    ∀ acc : List Char × Nat, RewriteInv c0 acc.1 →
      RewriteInv c0 (refs.foldl (updateStep m) acc).1 := by
  induction refs with
  | nil => exact fun acc h => h
  | cons r rs ih =>
    intro acc h
    rw [List.foldl_cons]
    apply ih (fun x hx => hrefs x (List.mem_cons_of_mem _ hx))
      (fun x hx => hmhex x (List.mem_cons_of_mem _ hx))
    show RewriteInv c0 (updateStep m acc r).1
    rw [updateStep]
    by_cases hc : r.current_hash = lookupD m r.action_path
    · rw [if_pos hc]
      exact h
    · rw [if_neg hc]
      exact inv_step h (hrefs r (List.mem_cons_self r rs))
        (hmhex r (List.mem_cons_self r rs))

theorem relevantRefs_shape {f : WFile} {r : ActionReference}
    (h : r ∈ relevantRefs f) : RefShape r := by
  rw [relevantRefs] at h
  by_cases hy : isYml f.path = true
  · rw [if_pos hy] at h
    exact find_refs_refShape h
  · rw [if_neg hy] at h
    exact absurd h (List.not_mem_nil r)

theorem relevantRefs_path_mem {files : List WFile} {f : WFile}
    (hf : f ∈ files) {r : ActionReference} (h : r ∈ relevantRefs f) :
    r.action_path ∈ allPaths (collect_all_references files) := by
  have hne : relevantRefs f ≠ [] := by
    intro he
    rw [he] at h
    exact List.not_mem_nil r h
  have hy : isYml f.path = true := by
    by_contra hy
    rw [relevantRefs, if_neg hy] at h
    exact List.not_mem_nil r h
  rw [relevantRefs, if_pos hy] at h hne
  have hmem : (f, find_action_references f.content) ∈
      collect_all_references files :=
    collect_mem_iff.mpr ⟨hf, hy, rfl, hne⟩
  rw [allPaths, List.mem_map]
  refine ⟨r, ?_, rfl⟩
  rw [List.mem_flatMap]
  exact ⟨(f, find_action_references f.content), hmem, h⟩

/-- C5: in a normal (non-dry) run in which every resolved hash is a
40-character lowercase hexadecimal string, each input file is transformed by
the chain of whole-match substring substitutions, its length is preserved,
and every position lying outside all scanner-matched reference substrings of
the original content keeps its original character. -/
theorem c5_bytes_outside_matches_preserved
    {env : List Char → Bool × List Char} {files : List WFile}
    {res : RunResult}
    (hhex : ∀ p ∈ allPaths (collect_all_references files),
      HashGrammar (resolvedHash env p))
    (hrun : mainRun false env files = Except.ok res)
    {k : Nat} {f : WFile} (hk : (files)[k]? = some f) :
    ∃ m log f2,
      get_hash_mapping env (collect_all_references files) =
        Except.ok (m, log) ∧
      (res.files)[k]? = some f2 ∧
      f2.path = f.path ∧
      f2.content = (processRefs m f.content (relevantRefs f)).1 ∧
      f2.content.length = f.content.length ∧
      (∀ i, (∀ pr ∈ matchesOf f.content, ¬ inSpan pr.1 pr.2 i) →
        (f2.content)[i]? = (f.content)[i]?) := by
  obtain ⟨m, log, hghm, hres⟩ := mainRun_ok_elim hrun
  refine ⟨m, log, ⟨f.path, (processRefs m f.content (relevantRefs f)).1⟩,
    hghm, ?_, rfl, rfl, ?_, ?_⟩
  · rw [hres]
    show ((if false then files else
      (files.map (rewriteFile m)).map (fun u => u.1)))[k]? = _
    rw [if_neg (by simp), List.getElem?_map, List.getElem?_map, hk]
    rfl
  all_goals {
    have hinv : RewriteInv f.content
        (processRefs m f.content (relevantRefs f)).1 := by
      apply processRefs_inv (fun r hr => relevantRefs_shape hr)
        (fun r hr => ?_) (f.content, 0) (rewriteInv_refl f.content)
      have hpm := relevantRefs_path_mem (List.getElem?_mem hk) hr
      rw [get_hash_mapping_lookupD hghm hpm]
      exact hhex _ hpm
    first
    | exact hinv.1
    | { intro i hout
        apply hinv.2.1
        intro hin
        obtain ⟨pr, hpr, hsp⟩ := hin
        exact hout pr hpr
          (inHashSpan_inSpan (matches_facts hpr).2.1 hsp) } }

theorem c5_witness :
    (∀ p ∈ allPaths (collect_all_references [sampleFile]),
      HashGrammar (resolvedHash sampleEnv p)) ∧
    mainRun false sampleEnv [sampleFile] = Except.ok sampleResNorm ∧
    ([sampleFile])[0]? = some sampleFile ∧
    ∃ m log f2,
      get_hash_mapping sampleEnv (collect_all_references [sampleFile]) =
        Except.ok (m, log) ∧
      (sampleResNorm.files)[0]? = some f2 ∧
      f2.path = sampleFile.path ∧
      f2.content =
        (processRefs m sampleFile.content (relevantRefs sampleFile)).1 ∧
      f2.content.length = sampleFile.content.length ∧
      (∀ i, (∀ pr ∈ matchesOf sampleFile.content, ¬ inSpan pr.1 pr.2 i) →
        (f2.content)[i]? = (sampleFile.content)[i]?) :=
  ⟨by decide, by rfl, by rfl,
    c5_bytes_outside_matches_preserved (by decide) (by rfl) (by rfl)⟩

/-- C3, counterexample to the claim as stated: a directory state and a fixed
resolved-hash mapping on which the second immediate run still performs a
substitution and reports a modified file.  A stale plain reference whose full
text recurs inside the path of a longer workflow-style reference is rewritten
inside that longer match by the first run, leaving the longer reference
stale for the second run. -/
theorem c3_counterexample :
    ∃ res1 res2 : RunResult,
      mainRun false cexEnv [cexFile] = Except.ok res1 ∧
      mainRun false cexEnv res1.files = Except.ok res2 ∧
      res2.total_updates ≠ 0 ∧ res2.files_modified ≠ 0 := by
  refine ⟨_, _, rfl, rfl, ?_, ?_⟩ <;> decide

theorem occursAt_of_getElem? {w s : List Char} {j : Nat}
    (hlen : j + w.length ≤ s.length)
    (hpt : ∀ off, off < w.length → (s)[j + off]? = (w)[off]?) :
    occursAt w s j := by
  rw [occursAt, List.prefix_iff_eq_take]
  apply List.ext_getElem?
  intro n
  by_cases hn : n < w.length
  · rw [List.getElem?_take_of_lt hn, drop_getElem?, hpt n hn]
  · push_neg at hn
    rw [List.getElem?_eq_none (by omega), List.getElem?_eq_none]
    rw [List.length_take, List.length_drop]
    omega

theorem occursAt_inside {u v s : List Char} {j a : Nat}
    (hu : occursAt u s j) (hv : occursAt v s a) (h1 : a ≤ j)
    (h2 : j + u.length ≤ a + v.length) : occursAt u v (j - a) := by
  apply occursAt_of_getElem? (by omega)
  intro off hoff
  have hx := occursAt_getElem? hv (j - a + off) (by omega)
  rw [show a + (j - a + off) = j + off by omega] at hx
  rw [← hx]
  exact occursAt_getElem? hu off hoff

theorem occursAt_prefix_sub {u w s : List Char} {j : Nat}
    (h : occursAt u s j) (hp : w <+: u) : occursAt w s j :=
  hp.trans h

theorem head_occurs {c0 : List Char} {a : Nat} {rM : ActionReference}
    (h : (a, rM) ∈ matchesOf c0) :
    occursAt (actionsLit ++ rM.action_path) c0 a := by
  apply occursAt_prefix_sub (matches_facts h).2.2
  rw [refShape_full_decomp (matches_facts h).1]
  exact ⟨_, rfl⟩

theorem prefix_eq_of_length {u v t : List Char} (hu : u <+: t) (hv : v <+: t)
    (hl : u.length = v.length) : u = v := by
  rw [List.prefix_iff_eq_take] at hu hv
  rw [hu, hv, hl]

theorem aligned_exact {c0 c : List Char} (hinv : RewriteInv c0 c)
    (hH : ∀ pr ∈ matchesOf c0, onlyHeadMarker (actionsLit ++ pr.2.action_path))
    {w : ActionReference} (hw : RefShape w) {j : Nat}
    (hocc : occursAt w.full_match c j) :
    ∃ rM, (j, rM) ∈ matchesOf c0 ∧
      rM.action_path = w.action_path ∧
      rM.full_match.length = w.full_match.length := by
  obtain ⟨a, rM, hmem, haj, hend⟩ := occurrence_aligned hinv hw hocc
  obtain ⟨hshM, hgeM, hoccM⟩ := matches_facts hmem
  have hgew := refShape_length_ge hw
  have hlw := refShape_full_length hw
  have hlM := refShape_full_length hshM
  have hbound : a + rM.full_match.length ≤ c0.length :=
    occursAt_length_le (by
      intro he
      rw [he, List.length_nil] at hgeM
      omega) hoccM
  -- transfer the head of the occurrence of w back to the original content
  have hhead : ∀ off, off < w.full_match.length - 41 →
      (c0)[j + off]? = (w.full_match)[off]? := by
    intro off hoff
    have hC : (c)[j + off]? = (w.full_match)[off]? :=
      occursAt_getElem? hocc off (by omega)
    rw [← hC]
    symm
    apply hinv.2.1
    intro hin
    obtain ⟨⟨b, rB⟩, hB, hsB⟩ := hin
    have hsp1 : inSpan b rB (j + off) :=
      inHashSpan_inSpan (matches_facts hB).2.1 hsB
    have hsp2 : inSpan a rM (j + off) := by
      show a ≤ j + off ∧ j + off < a + rM.full_match.length
      omega
    have heq := span_unique hB hmem hsp1 hsp2
    rw [Prod.mk.injEq] at heq
    obtain ⟨rfl, rfl⟩ := heq
    show False
    have hsB2 : b + rB.full_match.length - 40 ≤ j + off := hsB.1
    omega
  have hKw : (actionsLit ++ w.action_path).length =
      w.full_match.length - 41 := by
    rw [List.length_append, actionsLit_length]
    omega
  have hu : occursAt (actionsLit ++ w.action_path) c0 j := by
    apply occursAt_of_getElem? (by omega)
    intro off hoff
    rw [hKw] at hoff
    rw [hhead off hoff]
    conv_lhs => rw [refShape_full_decomp hw]
    rw [List.getElem?_append_left (by rw [hKw]; omega)]
  have hv := head_occurs hmem
  have hKM : (actionsLit ++ rM.action_path).length =
      rM.full_match.length - 41 := by
    rw [List.length_append, actionsLit_length]
    omega
  have hinside : occursAt (actionsLit ++ w.action_path)
      (actionsLit ++ rM.action_path) (j - a) := by
    apply occursAt_inside hu hv haj
    rw [hKw, hKM]
    omega
  have hja : j - a = 0 :=
    hH (a, rM) hmem (j - a)
      (occursAt_prefix_sub hinside (List.prefix_append _ _))
  have hja2 : j = a := by omega
  subst hja2
  have hleq : rM.full_match.length = w.full_match.length := by omega
  refine ⟨rM, hmem, ?_, hleq⟩
  have hheq : actionsLit ++ w.action_path = actionsLit ++ rM.action_path := by
    apply prefix_eq_of_length hu hv
    rw [hKw, hKM, hleq]
  exact (List.append_cancel_left hheq.symm)

theorem refShape_ext {r1 r2 : ActionReference} (s1 : RefShape r1)
    (s2 : RefShape r2) (hp : r1.action_path = r2.action_path)
    (hh : r1.current_hash = r2.current_hash) : r1 = r2 := by
  have h1 := s1.1
  have h2 := s2.1
  cases r1 with
  | mk f1 p1 g1 =>
    cases r2 with
    | mk f2 p2 g2 =>
      simp only at hp hh h1 h2
      subst hp
      subst hh
      rw [h1, h2]

theorem hashSeg_getElem? {c : List Char} {a : Nat} {r : ActionReference}
    {k : Nat} (hk : k < 40) :
    (hashSeg c a r)[k]? = (c)[a + r.full_match.length - 40 + k]? := by
  rw [hashSeg, List.getElem?_take_of_lt hk, drop_getElem?]

theorem hashSeg_eq_of {c : List Char} {a : Nat} {r : ActionReference}
    {t : List Char} (hc : a + r.full_match.length ≤ c.length)
    (hL : 40 ≤ r.full_match.length) (ht : t.length = 40)
    (hpt : ∀ k, k < 40 → (c)[a + r.full_match.length - 40 + k]? = (t)[k]?) :
    hashSeg c a r = t := by
  apply List.ext_getElem?
  intro k
  by_cases hk : k < 40
  · rw [hashSeg_getElem? hk]
    exact hpt k hk
  · push_neg at hk
    have hlen2 : (hashSeg c a r).length = 40 := by
      simp only [hashSeg, List.length_take, List.length_drop]
      omega
    rw [List.getElem?_eq_none (by omega), List.getElem?_eq_none (by omega)]

theorem hashSeg_val {c : List Char} {a : Nat} {r : ActionReference}
    {t : List Char} (h : hashSeg c a r = t) {k : Nat} (hk : k < 40) :
    (c)[a + r.full_match.length - 40 + k]? = (t)[k]? := by
  rw [← hashSeg_getElem? hk, h]

theorem refShape_getElem_tail {r : ActionReference} (h : RefShape r)
    {off : Nat} (h1 : r.full_match.length - 40 ≤ off)
    (h2 : off < r.full_match.length) :
    (r.full_match)[off]? =
      (r.current_hash)[off - (r.full_match.length - 40)]? := by
  have hflen := refShape_full_length h
  have hhl : r.current_hash.length = 40 := h.2.2.1
  have hK : (actionsLit ++ r.action_path).length =
      14 + r.action_path.length := by
    simp [List.length_append, actionsLit_length]
  conv_lhs => rw [refShape_full_decomp h]
  rw [List.getElem?_append_right (by omega)]
  rcases hc : off - (actionsLit ++ r.action_path).length with _ | k
  · omega
  · rw [List.getElem?_cons_succ]
    congr 1
    omega

theorem refShape_getElem_head {r : ActionReference} (h : RefShape r)
    {off : Nat} (h2 : off < r.full_match.length - 41) :
    (r.full_match)[off]? = ((actionsLit ++ r.action_path))[off]? := by
  have hflen := refShape_full_length h
  have hK : (actionsLit ++ r.action_path).length =
      14 + r.action_path.length := by
    simp [List.length_append, actionsLit_length]
  rw [refShape_full_decomp h, List.getElem?_append_left (by omega)]

theorem hashSeg_eq_current {c0 : List Char} {a : Nat} {rM : ActionReference}
    (hm : (a, rM) ∈ matchesOf c0) : hashSeg c0 a rM = rM.current_hash := by
  obtain ⟨hsh, hge, hocc⟩ := matches_facts hm
  apply hashSeg_eq_of (occursAt_length_le (by
      intro he
      rw [he, List.length_nil] at hge
      omega) hocc) (by omega) hsh.2.2.1
  intro k hk
  have hx := match_content hm (rM.full_match.length - 40 + k) (by omega)
  rw [show a + (rM.full_match.length - 40 + k) =
    a + rM.full_match.length - 40 + k by omega] at hx
  rw [hx, refShape_getElem_tail hsh (by omega) (by omega)]
  congr 1
  omega

theorem inv_head_agree {c0 c : List Char} (hinv : RewriteInv c0 c)
    {a : Nat} {rM : ActionReference} (hm : (a, rM) ∈ matchesOf c0)
    {i : Nat} (h1 : a ≤ i) (h2 : i < a + rM.full_match.length - 40) :
    (c)[i]? = (c0)[i]? := by
  have hge := (matches_facts hm).2.1
  apply hinv.2.1
  intro hin
  obtain ⟨⟨b, rB⟩, hB, hsB⟩ := hin
  have hsp1 : inSpan b rB i :=
    inHashSpan_inSpan (matches_facts hB).2.1 hsB
  have hsp2 : inSpan a rM i := ⟨h1, by omega⟩
  have heq := span_unique hB hm hsp1 hsp2
  rw [Prod.mk.injEq] at heq
  obtain ⟨rfl, rfl⟩ := heq
  have hsB2 : b + rB.full_match.length - 40 ≤ i := hsB.1
  omega

theorem occ_char {c0 c : List Char} {m : List (List Char × List Char)}
    {pending : List ActionReference} (hinv : RewriteInv c0 c)
    (hH : ∀ pr ∈ matchesOf c0,
      onlyHeadMarker (actionsLit ++ pr.2.action_path))
    (hseg : ∀ pr ∈ matchesOf c0, hashSeg c pr.1 pr.2 =
      (if pr.2 ∈ pending then pr.2.current_hash
       else lookupD m pr.2.action_path))
    {r : ActionReference} (hr : RefShape r) (hrp : r ∈ pending)
    (hne : r.current_hash ≠ lookupD m r.action_path) :
    ∀ j, occursAt r.full_match c j ↔ (j, r) ∈ matchesOf c0 := by
  have hger := refShape_length_ge hr
  have hrne : r.full_match ≠ [] := by
    intro he
    rw [he, List.length_nil] at hger
    omega
  intro j
  constructor
  · intro hocc
    obtain ⟨rM, hmem, hpath, hlenM⟩ := aligned_exact hinv hH hr hocc
    have hshM := (matches_facts hmem).1
    have hjc : j + r.full_match.length ≤ c.length :=
      occursAt_length_le hrne hocc
    -- the hash segment of the aligned match currently holds r.current_hash
    have hsegr : hashSeg c j rM = r.current_hash := by
      apply hashSeg_eq_of (by omega) (by omega) hr.2.2.1
      intro k hk
      have hx := occursAt_getElem? hocc (r.full_match.length - 40 + k)
        (by omega)
      rw [show j + (r.full_match.length - 40 + k) =
        j + rM.full_match.length - 40 + k by omega] at hx
      rw [hx, refShape_getElem_tail hr (by omega) (by omega)]
      congr 1
      omega
    have hs := hseg (j, rM) hmem
    by_cases hp : rM ∈ pending
    · rw [if_pos hp] at hs
      have : rM = r := refShape_ext hshM hr hpath (by
        rw [← hs, hsegr])
      rw [← this]
      exact hmem
    · rw [if_neg hp] at hs
      exfalso
      apply hne
      rw [← hpath, ← hs, hsegr]
  · intro hmem
    have hjc0 : j + r.full_match.length ≤ c0.length :=
      occursAt_length_le hrne (matches_facts hmem).2.2
    apply occursAt_of_getElem? (by
      rw [hinv.1]
      exact hjc0)
    intro off hoff
    by_cases hh : off < r.full_match.length - 40
    · rw [inv_head_agree hinv hmem (by omega) (by omega)]
      exact match_content hmem off hoff
    · push_neg at hh
      have hs := hseg (j, r) hmem
      rw [if_pos hrp] at hs
      have hx := @hashSeg_val c j r r.current_hash hs
        (off - (r.full_match.length - 40)) (by omega)
      rw [show j + r.full_match.length - 40 +
        (off - (r.full_match.length - 40)) = j + off by omega] at hx
      rw [hx]
      exact (refShape_getElem_tail hr hh hoff).symm

theorem fold_track {c0 : List Char} {m : List (List Char × List Char)}
    (hH : ∀ pr ∈ matchesOf c0,
      onlyHeadMarker (actionsLit ++ pr.2.action_path)) :
    ∀ (pending : List ActionReference), pending.Nodup →
      (∀ r ∈ pending, RefShape r) →
      (∀ r ∈ pending, HashGrammar (lookupD m r.action_path)) →
      ∀ (acc : List Char × Nat), RewriteInv c0 acc.1 →
      (∀ pr ∈ matchesOf c0,
        hashSeg acc.1 pr.1 pr.2 =
          (if pr.2 ∈ pending then pr.2.current_hash
           else lookupD m pr.2.action_path)) →
      RewriteInv c0 (pending.foldl (updateStep m) acc).1 ∧
      (∀ pr ∈ matchesOf c0,
        hashSeg (pending.foldl (updateStep m) acc).1 pr.1 pr.2 =
          lookupD m pr.2.action_path) := by
  intro pending
  induction pending with
  | nil =>
    intro _ _ _ acc hinv hseg
    refine ⟨hinv, ?_⟩
    intro pr hpr
    have hx := hseg pr hpr
    rw [if_neg (List.not_mem_nil pr.2)] at hx
    exact hx
  | cons r rest ih =>
    intro hnd hsh hhg acc hinv hseg
    obtain ⟨c, n⟩ := acc
    obtain ⟨hrnotin, hndrest⟩ := List.nodup_cons.mp hnd
    have hshr := hsh r (List.mem_cons_self r rest)
    have hhgr := hhg r (List.mem_cons_self r rest)
    have hger := refShape_length_ge hshr
    have hrne : r.full_match ≠ [] := by
      intro he
      rw [he, List.length_nil] at hger
      omega
    have hrestSh : ∀ x ∈ rest, RefShape x :=
      fun x hx => hsh x (List.mem_cons_of_mem _ hx)
    have hrestHg : ∀ x ∈ rest, HashGrammar (lookupD m x.action_path) :=
      fun x hx => hhg x (List.mem_cons_of_mem _ hx)
    rw [List.foldl_cons]
    by_cases hcur : r.current_hash = lookupD m r.action_path
    · have hstep : updateStep m (c, n) r = (c, n) := by
        rw [updateStep, if_pos hcur]
      rw [hstep]
      apply ih hndrest hrestSh hrestHg (c, n) hinv
      intro pr hpr
      have hx := hseg pr hpr
      by_cases hmem : pr.2 ∈ rest
      · rw [if_pos hmem]
        rw [if_pos (List.mem_cons_of_mem _ hmem)] at hx
        exact hx
      · rw [if_neg hmem]
        by_cases heqr : pr.2 = r
        · rw [if_pos (by rw [heqr]; exact List.mem_cons_self r rest)] at hx
          rw [hx, heqr, hcur]
        · rw [if_neg (by
            intro hm
            rcases List.mem_cons.mp hm with h | h
            · exact heqr h
            · exact hmem h)] at hx
          exact hx
    · have hstep : updateStep m (c, n) r =
          (replaceAll r.full_match (new_ref m r.action_path) c, n + 1) := by
        rw [updateStep, if_neg hcur]
      rw [hstep]
      have hoccs := occ_char hinv hH hseg hshr (List.mem_cons_self r rest)
        hcur
      have hlen_nr : r.full_match.length =
          (new_ref m r.action_path).length := by
        have hx := refShape_full_length hshr
        rw [new_ref, List.length_append, List.length_append,
          List.length_cons, actionsLit_length, hhgr.1]
        omega
      have hsep : ∀ j1 j2, occursAt r.full_match c j1 →
          occursAt r.full_match c j2 → j1 < j2 →
          j1 + r.full_match.length ≤ j2 := by
        intro j1 j2 h1 h2 hlt
        have hm1 := (hoccs j1).mp h1
        have hm2 := (hoccs j2).mp h2
        rcases matches_separated hm1 hm2 (by
          intro he
          rw [Prod.mk.injEq] at he
          omega) with h | h
        · exact h
        · omega
      have hinvStep : RewriteInv c0
          (replaceAll r.full_match (new_ref m r.action_path) c) :=
        inv_step hinv hshr hhgr
      have hclen : (replaceAll r.full_match (new_ref m r.action_path)
          c).length = c.length := by
        rw [replaceAll_eq_raAux hrne,
          raAux_length hrne hlen_nr c.length c (Nat.le_refl _)]
      apply ih hndrest hrestSh hrestHg _ hinvStep
      intro pr hpr
      obtain ⟨b, rB⟩ := pr
      have hshB := (matches_facts hpr).1
      have hgeB := (matches_facts hpr).2.1
      have hbc0 : b + rB.full_match.length ≤ c0.length :=
        occursAt_length_le (by
          intro he
          rw [he, List.length_nil] at hgeB
          omega) (matches_facts hpr).2.2
      by_cases hBr : rB = r
      · subst hBr
        show hashSeg (replaceAll rB.full_match (new_ref m rB.action_path) c)
            b rB =
          (if rB ∈ rest then rB.current_hash
           else lookupD m rB.action_path)
        rw [if_neg hrnotin]
        have hoccb : occursAt rB.full_match c b := (hoccs b).mpr hpr
        apply hashSeg_eq_of (by
            rw [hclen, hinv.1]
            exact hbc0) (by omega) hhgr.1
        intro k hk
        have hhit := raAux_hit hrne hlen_nr c.length c (Nat.le_refl _)
          hsep b hoccb (rB.full_match.length - 40 + k) (by omega)
        rw [replaceAll_eq_raAux hrne]
        rw [show b + rB.full_match.length - 40 + k =
          b + (rB.full_match.length - 40 + k) by omega]
        rw [hhit]
        have hKn : (actionsLit ++ rB.action_path).length =
            rB.full_match.length - 41 := by
          have hx := refShape_full_length hshr
          rw [List.length_append, actionsLit_length]
          omega
        show ((actionsLit ++ rB.action_path) ++
          '@' :: lookupD m rB.action_path)[rB.full_match.length -
            40 + k]? = _
        rw [List.getElem?_append_right (by omega)]
        rcases hc2 : rB.full_match.length - 40 + k -
            (actionsLit ++ rB.action_path).length with _ | k2
        · omega
        · rw [List.getElem?_cons_succ]
          congr 1
          omega
      · show hashSeg (replaceAll r.full_match (new_ref m r.action_path) c)
            b rB =
          (if rB ∈ rest then rB.current_hash
           else lookupD m rB.action_path)
        have hmemiff : (rB ∈ r :: rest) ↔ (rB ∈ rest) := by
          rw [List.mem_cons]
          exact or_iff_right hBr
        have hx : hashSeg c b rB =
            (if rB ∈ r :: rest then rB.current_hash
             else lookupD m rB.action_path) := hseg (b, rB) hpr
        have hunch : ∀ k, k < 40 →
            (replaceAll r.full_match (new_ref m r.action_path)
              c)[b + rB.full_match.length - 40 + k]? =
            (c)[b + rB.full_match.length - 40 + k]? := by
          intro k hk
          rw [replaceAll_eq_raAux hrne]
          by_contra hne2
          obtain ⟨j, hocc, hj1, hj2, hval⟩ := raAux_diff hrne hlen_nr
            c.length c (Nat.le_refl _) _ hne2
          have hjm := (hoccs j).mp hocc
          have hueq := span_unique hjm hpr
            (show inSpan j r (b + rB.full_match.length - 40 + k) from
              ⟨hj1, hj2⟩)
            (show inSpan b rB (b + rB.full_match.length - 40 + k) from
              ⟨by omega, by omega⟩)
          rw [Prod.mk.injEq] at hueq
          exact hBr hueq.2.symm
        have hsegeq : hashSeg (replaceAll r.full_match
            (new_ref m r.action_path) c) b rB = hashSeg c b rB := by
          apply hashSeg_eq_of (by
              rw [hclen, hinv.1]
              exact hbc0) (by omega) (by
            rw [hashSeg, List.length_take, List.length_drop, hinv.1]
            omega)
          intro k hk
          rw [hunch k hk]
          exact (hashSeg_getElem? hk).symm
        rw [hsegeq, hx]
        exact if_congr hmemiff rfl rfl

theorem processRefs_final {c0 : List Char} {m : List (List Char × List Char)}
    (hH : ∀ pr ∈ matchesOf c0,
      onlyHeadMarker (actionsLit ++ pr.2.action_path))
    (hhg : ∀ pr ∈ matchesOf c0, HashGrammar (lookupD m pr.2.action_path)) :
    RewriteInv c0 (processRefs m c0 (find_action_references c0)).1 ∧
    ∀ pr ∈ matchesOf c0,
      hashSeg (processRefs m c0 (find_action_references c0)).1 pr.1 pr.2 =
        lookupD m pr.2.action_path := by
  have hmem : ∀ r ∈ find_action_references c0,
      ∃ pr ∈ matchesOf c0, pr.2 = r := by
    intro r hr
    rw [find_action_references, List.mem_dedup, List.mem_map] at hr
    obtain ⟨pr, hpr, he⟩ := hr
    exact ⟨pr, hpr, he⟩
  apply fold_track hH (find_action_references c0)
    (List.nodup_dedup _)
    (fun r hr => by
      obtain ⟨pr, hpr, he⟩ := hmem r hr
      rw [← he]
      exact (matches_facts hpr).1)
    (fun r hr => by
      obtain ⟨pr, hpr, he⟩ := hmem r hr
      rw [← he]
      exact hhg pr hpr)
    (c0, 0) (rewriteInv_refl c0)
  intro pr hpr
  rw [if_pos (by
    rw [find_action_references, List.mem_dedup, List.mem_map]
    exact ⟨pr, hpr, rfl⟩)]
  exact hashSeg_eq_current hpr

theorem run1_content_upToDate {c0 : List Char}
    {m : List (List Char × List Char)}
    (hH : ∀ pr ∈ matchesOf c0,
      onlyHeadMarker (actionsLit ++ pr.2.action_path))
    (hhg : ∀ pr ∈ matchesOf c0, HashGrammar (lookupD m pr.2.action_path)) :
    ∀ {j : Nat} {w : ActionReference},
      (j, w) ∈ matchesOf (processRefs m c0 (find_action_references c0)).1 →
      ∃ rM, (j, rM) ∈ matchesOf c0 ∧ rM.action_path = w.action_path ∧
        w.current_hash = lookupD m w.action_path := by
  obtain ⟨hinv1, hsegfin⟩ := processRefs_final hH hhg
  intro j w hw
  obtain ⟨hshw, hgew, hoccw⟩ := matches_facts hw
  obtain ⟨rM, hmem, hpath, hlenM⟩ := aligned_exact hinv1 hH hshw hoccw
  refine ⟨rM, hmem, hpath, ?_⟩
  have hhg40 : (lookupD m w.action_path).length = 40 := by
    rw [← hpath]
    exact (hhg (j, rM) hmem).1
  apply List.ext_getElem?
  intro k
  by_cases hk : k < 40
  · have h1 : (w.current_hash)[k]? =
        (w.full_match)[w.full_match.length - 40 + k]? := by
      rw [refShape_getElem_tail hshw (by omega) (by omega)]
      congr 1
      omega
    rw [h1, ← occursAt_getElem? hoccw _ (by omega)]
    rw [show j + (w.full_match.length - 40 + k) =
      j + rM.full_match.length - 40 + k by omega]
    rw [← hashSeg_getElem? hk, hsegfin (j, rM) hmem]
    show (lookupD m rM.action_path)[k]? = _
    rw [hpath]
  · push_neg at hk
    rw [List.getElem?_eq_none (by rw [hshw.2.2.1]; omega),
      List.getElem?_eq_none (by rw [hhg40]; omega)]

theorem foldl_skip {m : List (List Char × List Char)} :
    ∀ (refs : List ActionReference),
      (∀ x ∈ refs, x.current_hash = lookupD m x.action_path) →
      ∀ acc : List Char × Nat, refs.foldl (updateStep m) acc = acc := by
  intro refs
  induction refs with
  | nil =>
    intro _ acc
    rfl
  | cons r rest ih =>
    intro h acc
    rw [List.foldl_cons, updateStep, if_pos (h r (List.mem_cons_self r rest))]
    exact ih (fun x hx => h x (List.mem_cons_of_mem _ hx)) acc

theorem applyUpdates_skip {m2 : List (List Char × List Char)}
    (log2 : List (List Char)) {files1 : List WFile}
    (h : ∀ g ∈ files1, rewriteFile m2 g = (g, 0)) :
    applyUpdates false m2 log2 files1 =
      ⟨files1, [], 0, 0, log2⟩ := by
  have hupd : files1.map (rewriteFile m2) = files1.map (fun g => (g, 0)) :=
    List.map_congr_left h
  simp only [applyUpdates, hupd, if_neg (Bool.false_ne_true)]
  have hch : (files1.zip (files1.map (fun g => (g, 0)))).filter
      (fun p => decide (p.2.1.content ≠ p.1.content)) = [] := by
    rw [zip_map_filter (fun g => ((g : WFile), (0 : Nat)))
      (fun a b => decide (b.1.content ≠ a.content)) files1]
    rw [List.filter_eq_nil_iff.mpr, List.map_nil]
    intro g hg
    simp
  rw [hch]
  have hfiles : (files1.map (fun g => ((g : WFile), (0 : Nat)))).map
      (fun u => u.1) = files1 := by
    rw [List.map_map]
    exact List.map_id' files1
  have htot : ((files1.map (fun g => ((g : WFile), (0 : Nat)))).map
      (fun u => u.2)).sum = 0 := by
    rw [List.map_map]
    apply List.sum_eq_zero
    intro x hx
    rw [List.mem_map] at hx
    obtain ⟨g, hg, he⟩ := hx
    exact he.symm
  rw [hfiles, htot]
  rfl

/-- C3, amended: running the full scan-resolve-rewrite pass a second time
immediately after a first normal run performs zero substitutions and reports
zero updates, zero modified files and an empty write list, provided every
resolved hash is a 40-character lowercase hexadecimal string and, in every
scanned file, no matched reference embeds the marker `XRPLF/actions/` at a
proper position of its prefix-and-path part (the unamended claim fails on
such nested references, see the counterexample). -/
theorem c3_second_run_noop_without_nested_marker
    {env : List Char → Bool × List Char} {files : List WFile}
    {res1 : RunResult}
    (hhex : ∀ p ∈ allPaths (collect_all_references files),
      HashGrammar (resolvedHash env p))
    (hH : ∀ f ∈ files, ∀ pr ∈ matchesOf f.content,
      onlyHeadMarker (actionsLit ++ pr.2.action_path))
    (hrun1 : mainRun false env files = Except.ok res1) :
    ∃ res2, mainRun false env res1.files = Except.ok res2 ∧
      res2.total_updates = 0 ∧ res2.files_modified = 0 ∧
      res2.written = [] ∧ res2.files = res1.files := by
  obtain ⟨m, log, hghm, hres1⟩ := mainRun_ok_elim hrun1
  have hok := get_hash_mapping_ok hghm
  have hlk : ∀ p ∈ allPaths (collect_all_references files),
      lookupD m p = resolvedHash env p :=
    fun p hp => get_hash_mapping_lookupD hghm hp
  have hqok : ∀ p ∈ allPaths (collect_all_references files),
      queryOk env p := by
    intro p hp
    have hplog : p ∈ log := (hok.2.2.2 p).mpr hp
    rw [← hok.1, List.mem_map] at hplog
    obtain ⟨pr, hprm, hpr1⟩ := hplog
    have hq := (hok.2.2.1 pr hprm).2
    rw [hpr1] at hq
    exact hq
  have hfiles1 : res1.files = files.map (fun f =>
      WFile.mk f.path (processRefs m f.content (relevantRefs f)).1) := by
    rw [hres1]
    simp only [applyUpdates, if_neg (Bool.false_ne_true), List.map_map]
    rfl
  have hfact : ∀ g ∈ res1.files, ∀ w ∈ relevantRefs g,
      w.current_hash = resolvedHash env w.action_path ∧
      w.action_path ∈ allPaths (collect_all_references files) := by
    rw [hfiles1]
    intro g hg w hw
    rw [List.mem_map] at hg
    obtain ⟨f, hf, rfl⟩ := hg
    by_cases hy : isYml f.path = true
    · have hrel_f : relevantRefs f = find_action_references f.content := by
        rw [relevantRefs, if_pos hy]
      rw [relevantRefs, if_pos hy] at hw
      rw [find_action_references, List.mem_dedup, List.mem_map] at hw
      obtain ⟨⟨j, w2⟩, hpr, he⟩ := hw
      have he2 : w2 = w := he
      subst he2
      have hpr2 : (j, w2) ∈ matchesOf
          (processRefs m f.content (find_action_references f.content)).1 := by
        rw [← hrel_f]
        exact hpr
      have hHf := hH f hf
      have hhgf : ∀ pr ∈ matchesOf f.content,
          HashGrammar (lookupD m pr.2.action_path) := by
        intro pr hprm
        have hmem : pr.2.action_path ∈
            allPaths (collect_all_references files) := by
          apply relevantRefs_path_mem hf
          rw [hrel_f, find_action_references, List.mem_dedup, List.mem_map]
          exact ⟨pr, hprm, rfl⟩
        rw [hlk _ hmem]
        exact hhex _ hmem
      obtain ⟨rM, hmemM, hpathM, hcur⟩ :=
        run1_content_upToDate hHf hhgf hpr2
      have hmemP : w2.action_path ∈
          allPaths (collect_all_references files) := by
        rw [← hpathM]
        apply relevantRefs_path_mem hf
        rw [hrel_f, find_action_references, List.mem_dedup, List.mem_map]
        exact ⟨(j, rM), hmemM, rfl⟩
      refine ⟨?_, hmemP⟩
      rw [hcur, hlk _ hmemP]
    · exfalso
      rw [relevantRefs, if_neg hy] at hw
      exact List.not_mem_nil w hw
  have hq2 : ∀ p ∈ allPaths (collect_all_references res1.files),
      queryOk env p := by
    intro p hp
    rw [allPaths, List.mem_map] at hp
    obtain ⟨r, hr, rfl⟩ := hp
    rw [List.mem_flatMap] at hr
    obtain ⟨⟨g, rs⟩, hgrs, hrmem⟩ := hr
    have hc := collect_mem_iff.mp hgrs
    have hrel : r ∈ relevantRefs g := by
      rw [relevantRefs, if_pos hc.2.1, ← hc.2.2.1]
      exact hrmem
    exact hqok _ (hfact g hc.1 r hrel).2
  obtain ⟨m2, log2, hghm2⟩ := get_hash_mapping_ok_of_allOk hq2
  have hlk2 : ∀ p ∈ allPaths (collect_all_references res1.files),
      lookupD m2 p = resolvedHash env p :=
    fun p hp => get_hash_mapping_lookupD hghm2 hp
  have hskip : ∀ g ∈ res1.files, rewriteFile m2 g = (g, 0) := by
    intro g hg
    have hall : ∀ x ∈ relevantRefs g,
        x.current_hash = lookupD m2 x.action_path := by
      intro x hx
      obtain ⟨hcur, _⟩ := hfact g hg x hx
      rw [hcur, hlk2 _ (relevantRefs_path_mem hg hx)]
    have hres := foldl_skip (relevantRefs g) hall (g.content, 0)
    show (⟨g.path, (processRefs m2 g.content (relevantRefs g)).1⟩,
      (processRefs m2 g.content (relevantRefs g)).2) = (g, 0)
    rw [show processRefs m2 g.content (relevantRefs g) = (g.content, 0)
      from hres]
  refine ⟨applyUpdates false m2 log2 res1.files, ?_, ?_, ?_, ?_, ?_⟩
  · simp only [mainRun, hghm2]
  all_goals rw [applyUpdates_skip log2 hskip]

theorem c3_witness :
    (∀ p ∈ allPaths (collect_all_references [sampleFile]),
      HashGrammar (resolvedHash sampleEnv p)) ∧
    (∀ f ∈ [sampleFile], ∀ pr ∈ matchesOf f.content,
      onlyHeadMarker (actionsLit ++ pr.2.action_path)) ∧
    mainRun false sampleEnv [sampleFile] = Except.ok sampleResNorm ∧
    ∃ res2, mainRun false sampleEnv sampleResNorm.files = Except.ok res2 ∧
      res2.total_updates = 0 ∧ res2.files_modified = 0 ∧
      res2.written = [] ∧ res2.files = sampleResNorm.files :=
  ⟨by decide, by decide, by rfl,
    @c3_second_run_noop_without_nested_marker sampleEnv [sampleFile]
      sampleResNorm (by decide) (by decide) (by rfl)⟩
